import Mathlib

/-!
Verification development for the claude-dotfiles repository.

This file shallow-embeds the parts of the repository that the checked
properties are about:

* `scripts/feedback_parser.py` — the inline-feedback block scanner
  (`FeedbackParser.parse_file`, `parse_metadata`, `is_feedback_line`,
  `parse_repository`);
* `scripts/ingest-repo.py` — the ingestion security filter
  (`SecurityFilter.should_include_file`, `_matches_allowlist`,
  `_matches_pattern` built on `fnmatch`) and the manifest name
  sanitization (`RepoIngestion._extract_and_sanitize_repo_name`,
  `_update_manifest`);
* `scripts/planworktree.py` — `create_worktree`.

Python strings are modelled as Lean `String`/`List Char`; regular
expressions used by the source are compiled away into equivalent
explicit matchers on character lists (each matcher is documented with
the regex it embeds).  The ASCII fragments of the Python character
classes are used; every input appearing in the repository and in the
theorems below is ASCII.
-/

namespace ClaudeDotfiles

/-! ## Character classes and small string utilities

`isPySpace` is the ASCII fragment of the Python `\s` class and of the
character set stripped by `str.rstrip()` with no argument. -/

def isPySpace (c : Char) : Bool :=
  c = ' ' || c = '\t' || c = '\n' || c = '\r' || c = '\x0b' || c = '\x0c'

/-- ASCII fragment of the Python regex class `\w`. -/
def isWordChar (c : Char) : Bool :=
  c.isAlpha || c.isDigit || c = '_'

/-- The class `[\w-]` used by the reviewer regex `@([\w-]+)`. -/
def wordOrHyphen (c : Char) : Bool :=
  isWordChar c || c = '-'

/-- `line.rstrip()` on a character list. -/
def rstripList (l : List Char) : List Char :=
  (l.reverse.dropWhile isPySpace).reverse

/-- `line.rstrip()`. -/
def rstrip (s : String) : String :=
  ⟨rstripList s.data⟩

/-- Drop the leading run matched by a greedy `\s*`. -/
def dropSpaces (l : List Char) : List Char :=
  l.dropWhile isPySpace

/-- If `p` is a literal prefix of `l`, return the remainder. -/
def stripLit : List Char → List Char → Option (List Char)
  | [], l => some l
  | _, [] => none
  | c :: p, d :: l => if c = d then stripLit p l else none

/-- Python substring test `needle in haystack`. -/
def containsSeq (needle : List Char) : List Char → Bool
  | [] => (stripLit needle []).isSome
  | l@(_ :: t) => (stripLit needle l).isSome || containsSeq needle t

/-- `needle in haystack` on Lean strings. -/
def substrB (needle s : String) : Bool :=
  containsSeq needle.data s.data

/-! ## feedback_parser.py — tag recognition

`FeedbackParser.PATTERNS` maps comment styles to regexes; insertion
order is python, js, html, css.  `is_feedback_line` returns the first
pattern's captured tag.  All four regexes are anchored with `^` and are
used through `pattern.search` without `re.MULTILINE`, so they only
match at the start of the line. -/

def KEYWORDS : List String := ["FEEDBACK", "RESPONSE", "RESOLVED"]

/-- Match the alternation `(FEEDBACK|RESPONSE|RESOLVED)` at the head of
`l`, returning the tag and the remainder.  The three keywords are
pairwise prefix-incompatible, so at most one alternative matches. -/
def matchKeyword (l : List Char) : Option (String × List Char) :=
  KEYWORDS.findSome? fun k => (stripLit k.data l).map fun rest => (k, rest)

/-- The lazy `.*?-->` / `.*?\*/` part of the html and css regexes:
`closer` occurs in `l` with no newline before it (`.` does not match
`'\n'`). -/
def hasCloser (closer : List Char) : List Char → Bool
  | [] => (stripLit closer []).isSome
  | l@(c :: t) =>
    (stripLit closer l).isSome || (!(c = '\n') && hasCloser closer t)

/-- `^\s*` followed by the literal comment opener: drop the leading
space run, then consume the opener. -/
def matchOpen (opener : List Char) (l : List Char) : Option (List Char) :=
  stripLit opener (dropSpaces l)

/-- A regex of shape `^\s*OPENER\s*(FEEDBACK|RESPONSE|RESOLVED)` —
the `'python'` pattern with opener `#`, the `'js'` pattern with opener
`//`. -/
def matchSimple (opener : List Char) (l : List Char) : Option String :=
  match matchOpen opener l with
  | some rest => (matchKeyword (dropSpaces rest)).map (·.1)
  | none => none

/-- A regex of shape `^\s*OPENER\s*(FEEDBACK|RESPONSE|RESOLVED).*?CLOSER`
— the `'html'` pattern with `<!--`/`-->`, the `'css'` pattern with
`/*`/`*/`. -/
def matchClosed (opener closer : List Char) (l : List Char) : Option String :=
  match matchOpen opener l with
  | some rest =>
    match matchKeyword (dropSpaces rest) with
    | some (k, rest2) => if hasCloser closer rest2 then some k else none
    | none => none
  | none => none

/-- `FeedbackParser.is_feedback_line`: try the four patterns in dict
insertion order (python, js, html, css), return the captured tag of the
first match. -/
def is_feedback_line (s : String) : Option String :=
  match matchSimple ['#'] s.data with
  | some k => some k
  | none =>
  match matchSimple ['/', '/'] s.data with
  | some k => some k
  | none =>
  match matchClosed ['<', '!', '-', '-'] ['-', '-', '>'] s.data with
  | some k => some k
  | none => matchClosed ['/', '*'] ['*', '/'] s.data

/-! ## feedback_parser.py — metadata extraction -/

def SEVERITIES : List String := ["CRITICAL", "MAJOR", "MINOR", "NIT"]

/-- The severity loop of `parse_metadata`: first severity `s` (in list
order) with `'[' + s + ']' in line`, case-sensitively. -/
def extractSeverity (l : List Char) : Option String :=
  SEVERITIES.find? fun s => containsSeq ('[' :: s.data ++ [']']) l

/-- Leftmost match of `@([\w-]+)`: the maximal `[\w-]` run after the
first `@` that is followed by at least one such character. -/
def extractReviewer : List Char → Option String
  | [] => none
  | c :: rest =>
    if c = '@' then
      if (rest.takeWhile wordOrHyphen).isEmpty then extractReviewer rest
      else some ⟨rest.takeWhile wordOrHyphen⟩
    else extractReviewer rest

/-- Does `(\d{4}-\d{2}-\d{2})` match at the head of `l`? -/
def dateAt? : List Char → Option String
  | a :: b :: c :: d :: e :: f :: g :: h :: i :: j :: _ =>
    if a.isDigit && b.isDigit && c.isDigit && d.isDigit && e = '-' &&
        f.isDigit && g.isDigit && h = '-' && i.isDigit && j.isDigit then
      some ⟨[a, b, c, d, e, f, g, h, i, j]⟩
    else none
  | _ => none

/-- Leftmost match of `(\d{4}-\d{2}-\d{2})`. -/
def extractDate : List Char → Option String
  | [] => none
  | l@(_ :: rest) =>
    match dateAt? l with
    | some d => some d
    | none => extractDate rest

/-- The three metadata fields of a feedback line.  The Python function
returns a dict with keys `severity`, `reviewer`, `date`; the freshly
reset `metadata = {}` of `parse_file` is modelled by `Metadata.empty`
(every `.get` on it returns `None`). -/
structure Metadata where
  severity : Option String
  reviewer : Option String
  date : Option String
deriving Repr, DecidableEq

def Metadata.empty : Metadata := ⟨none, none, none⟩

/-- `FeedbackParser.parse_metadata`: three independent extractions. -/
def parse_metadata (line : String) : Metadata :=
  { severity := extractSeverity line.data
    reviewer := extractReviewer line.data
    date := extractDate line.data }

/-! ## feedback_parser.py — the block scanner -/

/-- The dataclass `FeedbackBlock`. -/
structure FeedbackBlock where
  file_path : String
  line_start : Nat
  line_end : Nat
  feedback_lines : List String
  severity : Option String
  reviewer : Option String
  date : Option String
  status : String
  has_response : Bool
  has_resolved : Bool
deriving Repr, DecidableEq

/-- The status classification used at both block-closing sites of
`parse_file`. -/
def statusOf (hasResolved hasResponse : Bool) : String :=
  if hasResolved then "resolved"
  else if hasResponse then "responded"
  else "open"

/-- The loop state of `parse_file`: accumulated blocks plus the local
variables `current_block`, `current_lines`, `block_start`,
`has_feedback`, `has_response`, `has_resolved`, `metadata`. -/
structure ParseState where
  blocks : List FeedbackBlock
  currentBlock : Bool
  currentLines : List String
  blockStart : Option Nat
  hasFeedback : Bool
  hasResponse : Bool
  hasResolved : Bool
  metadata : Metadata
deriving Repr, DecidableEq

def initState : ParseState :=
  ⟨[], false, [], none, false, false, false, Metadata.empty⟩

/-- The `else` branch of the scan loop and the end-of-file epilogue of
`parse_file`: if `current_lines` is non-empty and `block_start` is set,
build a `FeedbackBlock` and reset the in-block variables (the flag and
metadata variables are not reset here, matching the source). -/
def closeBlock (fp : String) (st : ParseState) : ParseState :=
  match st.blockStart with
  | none => st
  | some s =>
    if st.currentLines.isEmpty then st
    else
      { st with
        blocks := st.blocks ++ [{
          file_path := fp
          line_start := s
          line_end := s + st.currentLines.length - 1
          feedback_lines := st.currentLines
          severity := st.metadata.severity
          reviewer := st.metadata.reviewer
          date := st.metadata.date
          status := statusOf st.hasResolved st.hasResponse
          has_response := st.hasResponse
          has_resolved := st.hasResolved }]
        currentLines := []
        currentBlock := false
        blockStart := none }

/-- One iteration of the `for line_num, line in enumerate(lines, 1)`
loop of `parse_file`. -/
def processLine (fp : String) (st : ParseState) (lineNum : Nat) (line : String) :
    ParseState :=
  match is_feedback_line line with
  | some ct =>
    let st1 :=
      if st.currentBlock then st
      else
        { st with
          currentBlock := true
          blockStart := some lineNum
          hasFeedback := false
          hasResponse := false
          hasResolved := false
          metadata := Metadata.empty }
    let st2 := { st1 with currentLines := st1.currentLines ++ [rstrip line] }
    if ct = "FEEDBACK" && !st2.hasFeedback then
      { st2 with metadata := parse_metadata line, hasFeedback := true }
    else if ct = "RESPONSE" then { st2 with hasResponse := true }
    else if ct = "RESOLVED" then { st2 with hasResolved := true }
    else st2
  | none => closeBlock fp st

/-- The scan loop, carrying the 1-based number of the next line. -/
def parseLines (fp : String) : List String → Nat → ParseState → ParseState
  | [], _, st => st
  | l :: ls, n, st => parseLines fp ls (n + 1) (processLine fp st n l)

/-- `FeedbackParser.parse_file` on a successfully read file, presented
with its list of lines. -/
def parse_file_lines (fp : String) (lines : List String) : List FeedbackBlock :=
  (closeBlock fp (parseLines fp lines 1 initState)).blocks

/-- `FeedbackParser.parse_file`.  A file whose `open`/`readlines`
raises `IOError` or `UnicodeDecodeError` is modelled as `none`; the
`except` clause returns the empty block list for it. -/
def parse_file (fp : String) (content : Option (List String)) : List FeedbackBlock :=
  match content with
  | none => []
  | some lines => parse_file_lines fp lines

/-- `FeedbackParser.parse_repository`, applied to the file list (with
contents) produced by `find_files_with_feedback`: the per-file block
lists are concatenated in file order. -/
def parse_repository (files : List (String × Option (List String))) :
    List FeedbackBlock :=
  files.flatMap fun f => parse_file f.1 f.2

/-! ## ingest-repo.py — fnmatch

`SecurityFilter._matches_pattern` and `_matches_allowlist` rely on
`fnmatch.fnmatch` (on POSIX `os.path.normcase` is the identity, so this
is `fnmatch.fnmatchcase`).  `fnmatch.translate` compiles the glob to a
regex; the embedding below compiles it to a list of `GItem`s with the
same semantics (CPython 3.11 `translate`): `*` matches any sequence
including `/`, `?` any single character, `[...]` a character class with
`!` negation, a leading or otherwise non-range `-` literal, ranges by
code point, empty ranges matching nothing, and an unclosed `[`
literal. -/

/-- One compiled element of a glob character class. -/
inductive ClassItem where
  | lit (c : Char)
  | range (lo hi : Char)
deriving Repr, DecidableEq

/-- Split a class body at its first `]`, returning (body, rest). -/
def splitOnClose : List Char → Option (List Char × List Char)
  | [] => none
  | c :: t =>
    if c = ']' then some ([], t)
    else (splitOnClose t).map fun p => (c :: p.1, p.2)

/-- The `!` negation marker at the head of a class. -/
def stripBang : List Char → Bool × List Char
  | [] => (false, [])
  | c :: t => if c = '!' then (true, t) else (false, c :: t)

/-- Find the class body the way `fnmatch.translate` does: a `]` in
first position (after the optional `!`) is part of the body. -/
def classBody (qs : List Char) : Option (List Char × List Char) :=
  match qs with
  | [] => none
  | c :: t =>
    if c = ']' then (splitOnClose t).map fun p => (']' :: p.1, p.2)
    else splitOnClose (c :: t)

def classSplit (ps : List Char) : Option (Bool × List Char × List Char) :=
  (classBody (stripBang ps).2).map fun p => ((stripBang ps).1, p.1, p.2)

/-- Parse a class body into items: a `-` with a character on each side
forms a range (scanning left to right, resuming after the range end);
all other characters, including stray hyphens, are literals. -/
def parseItems : List Char → List ClassItem
  | [] => []
  | [c] => [.lit c]
  | c :: '-' :: rest =>
    match rest with
    | [] => [.lit c, .lit '-']
    | y :: rest' => .range c y :: parseItems rest'
  | c :: rest => .lit c :: parseItems rest

/-- One compiled element of a glob pattern. -/
inductive GItem where
  | lit (c : Char)
  | anyc
  | star
  | cls (neg : Bool) (items : List ClassItem)
deriving Repr, DecidableEq

/-- Does a single character match a class body?  A `range lo hi` with
`hi < lo` matches nothing, which is exactly the effect of CPython's
empty-range removal. -/
def matchClassItem (c : Char) : ClassItem → Bool
  | .lit d => c = d
  | .range lo hi => lo ≤ c && c ≤ hi

def matchClass (neg : Bool) (items : List ClassItem) (c : Char) : Bool :=
  if neg then !(items.any (matchClassItem c)) else items.any (matchClassItem c)

/-- `fnmatch.translate`, compiling a glob pattern to `GItem`s, written
with an explicit step counter so that the recursion is structural
(every step consumes at least one pattern character, so `p.length`
steps always suffice; the `fuel = 0` arm is unreachable from
`translate`).  The special case `stuff == '!'` of the source (a class
that matches any character) coincides with `cls true []`. -/
def translateAux : Nat → List Char → List GItem
  | 0, _ => []
  | fuel + 1, p =>
    match p with
    | [] => []
    | c :: ps =>
      if c = '*' then .star :: translateAux fuel ps
      else if c = '?' then .anyc :: translateAux fuel ps
      else if c = '[' then
        match classSplit ps with
        | none => .lit '[' :: translateAux fuel ps
        | some (neg, body, rest) =>
          .cls neg (parseItems body) :: translateAux fuel rest
      else .lit c :: translateAux fuel ps

def translate (p : List Char) : List GItem :=
  translateAux p.length p

/-- The suffixes of a list, longest first, ending with `[]`. -/
def tails : List Char → List (List Char)
  | [] => [[]]
  | c :: t => (c :: t) :: tails t

/-- Matching a compiled pattern against a name, anchored at both ends
(the compiled regex is used via `.match` and ends in `\\Z`); `star`
consumes an arbitrary prefix, i.e. the remaining items must match some
suffix. -/
def matchItems : List GItem → List Char → Bool
  | [], s => s.isEmpty
  | .star :: is, s => (tails s).any fun s2 => matchItems is s2
  | .anyc :: is, s =>
    match s with
    | [] => false
    | _ :: s2 => matchItems is s2
  | .lit c :: is, s =>
    match s with
    | [] => false
    | d :: s2 => d = c && matchItems is s2
  | .cls neg items :: is, s =>
    match s with
    | [] => false
    | d :: s2 => matchClass neg items d && matchItems is s2

/-- `fnmatch.fnmatch(name, pattern)` (POSIX, so identical to
`fnmatchcase`). -/
def fnmatchB (name pattern : String) : Bool :=
  matchItems (translate pattern.data) name.data

/-! ## ingest-repo.py — SecurityFilter.should_include_file -/

/-- One value of `global_filters`: a JSON object whose keys are read
with `.get(key, default)`; absent keys are `none`.  `max_file_size_mb`
is a JSON number; `st_size / (1024*1024)` and the comparison against it
are exact in `ℚ` for every file size below `2^53` bytes, so `ℚ` models
the Python float arithmetic faithfully on realistic inputs. -/
structure CategoryConfig where
  enabled : Option Bool
  check_symlinks : Option Bool
  patterns : Option (List String)
  max_file_size_mb : Option ℚ
deriving DecidableEq

def CategoryConfig.missing : CategoryConfig := ⟨none, none, none, none⟩

/-- The merged filter configuration: `global_filters` keeps the JSON
object's insertion order, `allowlist` is the top-level list. -/
structure FilterConfig where
  global_filters : List (String × CategoryConfig)
  allowlist : List String
deriving DecidableEq

/-- `self.global_filters.get(name, {})`. -/
def FilterConfig.getFilter (cfg : FilterConfig) (name : String) : CategoryConfig :=
  match cfg.global_filters.find? (fun kv => kv.1 = name) with
  | some kv => kv.2
  | none => CategoryConfig.missing

/-- What `should_include_file` observes about one file:
`relPath = str(file_path.relative_to(repo_root))`; `symlinkTarget` is
the result of `os.readlink` (`none` models the call raising);
`sizeBytes` is `stat().st_size` (`none` models `stat` raising). -/
structure FileInfo where
  relPath : String
  isSymlink : Bool
  symlinkTarget : Option String
  sizeBytes : Option Nat
deriving DecidableEq

/-- `os.path.isabs` on POSIX. -/
def isAbsPath (t : String) : Bool :=
  match t.data with
  | '/' :: _ => true
  | _ => false

/-- The symlink paragraph of `should_include_file`: `True` exactly when
the paragraph executes `return False`. -/
def symlinkBlocked (cfg : FilterConfig) (f : FileInfo) : Bool :=
  f.isSymlink &&
    (let sc := cfg.getFilter "symlinks"
     (sc.enabled.getD true && sc.check_symlinks.getD true) &&
       match f.symlinkTarget with
       | none => true
       | some t => isAbsPath t || substrB ".." t)

/-- `SecurityFilter._matches_pattern` (the glob branch; the regex
branch is an unimplemented comment in the source). -/
def matchesPattern (path pattern : String) : Bool :=
  fnmatchB path pattern

/-- `SecurityFilter._matches_allowlist`. -/
def matchesAllowlist (cfg : FilterConfig) (path : String) : Bool :=
  cfg.allowlist.any fun pattern => fnmatchB path pattern

/-- The file-size paragraph: `True` exactly when it executes
`return False`.  A failing `stat` (`sizeBytes = none`) allows the
file. -/
def sizeBlocked (cfg : FilterConfig) (f : FileInfo) : Bool :=
  let lb := cfg.getFilter "large_binaries"
  lb.enabled.getD true &&
    match f.sizeBytes with
    | none => false
    | some n => (n : ℚ) / (1024 * 1024) > lb.max_file_size_mb.getD 1

/-- The per-category pattern loop: `True` exactly when some enabled
category other than `symlinks`/`large_binaries` has a matching
pattern. -/
def categoryBlocked (cfg : FilterConfig) (f : FileInfo) : Bool :=
  cfg.global_filters.any fun kv =>
    !(kv.1 = "symlinks" || kv.1 = "large_binaries") &&
      kv.2.enabled.getD true &&
      (kv.2.patterns.getD []).any fun pattern => matchesPattern f.relPath pattern

/-- `SecurityFilter.should_include_file`, with each early `return`
becoming one branch, in source order: symlink check, allowlist, size
limit, category patterns, default include. -/
def should_include_file (cfg : FilterConfig) (f : FileInfo) : Bool :=
  if symlinkBlocked cfg f then false
  else if matchesAllowlist cfg f.relPath then true
  else if sizeBlocked cfg f then false
  else if categoryBlocked cfg f then false
  else true

/-! ## ingest-repo.py — symlink target resolution (for C6)

The claim speaks of a symlink target "resolving outside the source
root".  The source never resolves targets, so the notion is modelled
from the spec here: a path is a list of components; resolution
normalizes `.`/empty components away and lets `..` pop.  `root` is the
absolute path of the repository root and `dir` the root-relative
directory containing the symlink, both as plain component lists. -/

/-- `str.split('/')` on character lists. -/
def splitSlash : List Char → List (List Char)
  | [] => [[]]
  | c :: rest =>
    if c = '/' then [] :: splitSlash rest
    else
      match splitSlash rest with
      | [] => [[c]]
      | g :: gs => (c :: g) :: gs

/-- Modelled from the spec: one step of lexical path normalization. -/
def normStep (acc : List (List Char)) (comp : List Char) : List (List Char) :=
  if comp = [] || comp = ['.'] then acc
  else if comp = ['.', '.'] then acc.dropLast
  else acc ++ [comp]

/-- Modelled from the spec: normalize a component list. -/
def normComponents (cs : List (List Char)) : List (List Char) :=
  cs.foldl normStep []

/-- Modelled from the spec: the absolute component list a symlink
target resolves to, for a symlink sitting in directory `dir` under
`root`. -/
def resolveTarget (root dir : List (List Char)) (t : String) : List (List Char) :=
  if isAbsPath t then normComponents (splitSlash t.data)
  else normComponents (root ++ dir ++ splitSlash t.data)

/-- Modelled from the spec: the target resolves outside the source
root. -/
def resolvesOutside (root dir : List (List Char)) (t : String) : Bool :=
  !(root.isPrefixOf (resolveTarget root dir t))

/-- A component list with no empty, `.` or `..` entries (what a walk of
real directories produces). -/
def plainComponents (cs : List (List Char)) : Prop :=
  ∀ comp ∈ cs, comp ≠ [] ∧ comp ≠ ['.'] ∧ comp ≠ ['.', '.']

/-! ## planworktree.py — create_worktree (for C8) -/

/-- Externally visible actions of `create_worktree`, in program
order. -/
inductive WtEffect where
  | mkdirParents
  | warnExists
  | gitWorktreeAddExisting
  | gitWorktreeAddNewBranch
  | mkdirPlanDir
  | symlinkPlan
deriving DecidableEq, Repr

/-- What `create_worktree` observes about the environment: whether the
declared `worktree_path` exists, whether `git show-ref` finds the
branch, and whether the `git worktree add` subprocess succeeds. -/
structure WtEnv where
  pathExists : Bool
  branchExists : Bool
  gitAddOk : Bool
deriving DecidableEq, Repr

/-- `create_worktree`: returns the boolean result together with the
trace of effects.  The parent-directory `mkdir(parents=True,
exist_ok=True)` precedes the existence check; an existing
`worktree_path` is reported with a warning and `True` is returned with
nothing else performed. -/
def create_worktree (env : WtEnv) : Bool × List WtEffect :=
  if env.pathExists then (true, [.mkdirParents, .warnExists])
  else
    let addEff :=
      if env.branchExists then WtEffect.gitWorktreeAddExisting
      else WtEffect.gitWorktreeAddNewBranch
    if env.gitAddOk then
      (true, [.mkdirParents, addEff, .mkdirPlanDir, .symlinkPlan])
    else (false, [.mkdirParents, addEff])

/-! ## ingest-repo.py — repository-name sanitization and the manifest -/

/-- `str.rstrip(chars)`: remove trailing characters drawn from the
set `chars`. -/
def rstripCharset (cs : List Char) (chars : List Char) : List Char :=
  (cs.reverse.dropWhile (fun c => chars.contains c)).reverse

/-- One character of `re.sub(r'[^a-zA-Z0-9_-]', '-', raw_name)`. -/
def sanitizeChar (c : Char) : Char :=
  if c.isAlpha || c.isDigit || c = '_' || c = '-' then c else '-'

/-- `sanitized.startswith('.')`. -/
def startsDot : List Char → Bool
  | [] => false
  | c :: _ => c = '.'

/-- The validation of `raw_name` and the `re.sub` sanitization, i.e.
the second half of `_extract_and_sanitize_repo_name`. -/
def sanitizeRawName (raw : List Char) : Except String String :=
  if raw = [] || raw = ['.'] || raw = ['.', '.'] then
    .error "Invalid repository name"
  else if startsDot (raw.map sanitizeChar) ||
      (raw.map sanitizeChar).contains '/' ||
      (raw.map sanitizeChar).contains '\\' ||
      raw.map sanitizeChar = [] then
    .error "Invalid repository name"
  else .ok ⟨raw.map sanitizeChar⟩

/-- `RepoIngestion._extract_and_sanitize_repo_name`; a raised
`ValueError` is `Except.error`.  `parts[-1]` is
`(splitSlash ...).getLast?` (the split of a string is never empty, so
the `getD` default is never used). -/
def extract_and_sanitize_repo_name (url : String) : Except String String :=
  if containsSeq ['.', '.'] url.data then
    .error ("Invalid repository URL (contains ..): " ++ url)
  else
    sanitizeRawName (((splitSlash (rstripCharset (rstripCharset url.data ['/'])
      ['.', 'g', 'i', 't'])).getLast?).getD [])

deriving instance DecidableEq for Except

/-- One manifest value; the field contents are irrelevant to the
claims. -/
structure ManifestEntry where
  url : String
  version : String
  commit_sha : String
  commit_date : String
  ingested_at : String
deriving DecidableEq, Repr

/-- The `repositories` object of the manifest, as an insertion-ordered
association list. -/
abbrev Manifest := List (String × ManifestEntry)

/-- `manifest['repositories'][name] = entry` (dict item assignment:
overwrite in place or append). -/
def updateManifest (m : Manifest) (name : String) (e : ManifestEntry) : Manifest :=
  if (List.any m fun kv => kv.1 = name) then
    List.map (fun kv => if kv.1 = name then (name, e) else kv) m
  else m ++ [(name, e)]

/-- The manifest-touching part of one ingest run: the name is derived
(and validated) in `RepoIngestion.__init__`, before `ingest` runs
`_update_manifest`; a `ValueError` therefore leaves the manifest
untouched. -/
def ingestUpdateManifest (url : String) (m : Manifest) (e : ManifestEntry) :
    Except String Manifest := do
  let name ← extract_and_sanitize_repo_name url
  pure (updateManifest m name e)

/-- A sanitized manifest key: nonempty, only alphanumerics, hyphens and
underscores. -/
def goodKey (k : String) : Prop :=
  k ≠ "" ∧ ∀ c ∈ k.data, (c.isAlpha || c.isDigit || c = '_' || c = '-') = true

/-- The `YYYY-MM-DD` shape: four digits, hyphen, two digits, hyphen,
two digits, and nothing else. -/
def isYMDShape (s : String) : Bool :=
  match s.data with
  | [a, b, c, d, e, f, g, h, i, j] =>
    a.isDigit && b.isDigit && c.isDigit && d.isDigit && e = '-' &&
      f.isDigit && g.isDigit && h = '-' && i.isDigit && j.isDigit
  | _ => false

/-! ## Concrete instances used by counterexamples and witnesses -/

/-- A configuration whose only category is an enabled symlink check,
with an allowlist matching every path. -/
def cfgAllowAll : FilterConfig :=
  ⟨[("symlinks", ⟨some true, some true, none, none⟩)], ["*"]⟩

/-- A symlink with an absolute target outside any repository root. -/
def fAbsLink : FileInfo :=
  ⟨"link.md", true, some "/etc/passwd", some 0⟩

/-- A configuration with an enabled symlink check, an empty allowlist
and no other category. -/
def cfgSymOnly : FilterConfig :=
  ⟨[("symlinks", ⟨some true, some true, none, none⟩)], []⟩

/-- A symlink whose absolute target `/repo/file` lies inside the root
`/repo`. -/
def fInsideLink : FileInfo :=
  ⟨"lnk", true, some "/repo/file", some 0⟩

/-- The component list of the root `/repo`. -/
def rootRepo : List (List Char) := [['r', 'e', 'p', 'o']]

/-- A configuration with a size ceiling of 1 MB, a deny pattern
matching every markdown file, and an allowlist matching README files. -/
def cfgReadme : FilterConfig :=
  ⟨[("large_binaries", ⟨some true, none, none, some 1⟩),
    ("secrets", ⟨some true, none, some ["*.md"], none⟩)],
   ["README*"]⟩

/-- A regular ten-megabyte README file. -/
def fReadme : FileInfo :=
  ⟨"README.md", false, none, some 10485760⟩

/-- An allowlisted, oversized symlink whose relative, `..`-free target
leaves it untouched by the symlink rule. -/
def fRelLink : FileInfo :=
  ⟨"README.md", true, some "docs/notes.md", some 10485760⟩

/-- The two-line file of the C5 counterexample: the block is opened by
a RESOLVED line and its only FEEDBACK line is the second one. -/
def linesC5 : List String :=
  ["# RESOLVED done", "# FEEDBACK [CRITICAL] (@alice, 2025-11-23): x"]

/-- The single example line of claim C4. -/
def lineC4 : String := "# FEEDBACK [CRITICAL] (@alice, 2025-11-23): fix"

/-- A file whose single feedback block runs to end-of-file. -/
def linesEof : List String := ["x", "# FEEDBACK: tail"]

/-- The block the scanner emits for `linesEof`. -/
def blockEof : FeedbackBlock :=
  ⟨"t", 2, 2, ["# FEEDBACK: tail"], none, none, none, "open", false, false⟩

/-- A file with two separate feedback blocks. -/
def linesTwo : List String :=
  ["# FEEDBACK: a", "y", "# FEEDBACK: b", "# RESPONSE: ok"]

/-- The second block the scanner emits for `linesTwo`. -/
def blockTwo : FeedbackBlock :=
  ⟨"t", 3, 4, ["# FEEDBACK: b", "# RESPONSE: ok"], none, none, none,
    "responded", true, false⟩

/-- Two single-block files whose tagged lines are permutations of each
other. -/
def linesPermA : List String := ["# RESPONSE: r", "# FEEDBACK: f"]

def linesPermB : List String := ["# FEEDBACK: f", "# RESPONSE: r"]

def blockPermA : FeedbackBlock :=
  ⟨"a", 1, 2, ["# RESPONSE: r", "# FEEDBACK: f"], none, none, none,
    "responded", true, false⟩

def blockPermB : FeedbackBlock :=
  ⟨"b", 1, 2, ["# FEEDBACK: f", "# RESPONSE: r"], none, none, none,
    "responded", true, false⟩

/-- The block the scanner emits for the single line `lineC4`. -/
def blockC4 : FeedbackBlock :=
  ⟨"x", 1, 1, [lineC4], some "CRITICAL", some "alice", some "2025-11-23",
    "open", false, false⟩

/-! ## The scanner invariant

`parse_file` is verified through an invariant on the loop state,
phrased against the full line list `L` and the 1-based number `n` of
the next line to process. -/

/-- The 0-based offset, within a block starting at line `s` and
currently `k` lines long, of the first line carrying a FEEDBACK tag. -/
def firstFB (L : List String) (s k : Nat) : Option Nat :=
  (List.range k).find? fun i =>
    is_feedback_line (L.getD (s - 1 + i) "") == some "FEEDBACK"

/-- Everything `parse_file` guarantees about one emitted block: 1-based
line numbers delimiting exactly the contiguous tagged run the block was
built from (maximal on the left, and on the right either end-of-file or
a non-tagged line), the stored lines being the `rstrip`-ed physical
lines, the status derived from tag presence, and the metadata taken
from the first FEEDBACK-tagged line when there is one. -/
def GoodBlock (L : List String) (b : FeedbackBlock) : Prop :=
  1 ≤ b.line_start ∧
  b.line_start + b.feedback_lines.length = b.line_end + 1 ∧
  b.feedback_lines ≠ [] ∧
  b.line_end ≤ L.length ∧
  (∀ i < b.feedback_lines.length,
    (is_feedback_line (L.getD (b.line_start - 1 + i) "")).isSome = true ∧
    b.feedback_lines.getD i "" = rstrip (L.getD (b.line_start - 1 + i) "")) ∧
  (b.line_start = 1 ∨ is_feedback_line (L.getD (b.line_start - 2) "") = none) ∧
  (b.line_end = L.length ∨ is_feedback_line (L.getD b.line_end "") = none) ∧
  b.status = statusOf b.has_resolved b.has_response ∧
  (b.has_resolved = true ↔ ∃ i < b.feedback_lines.length,
    is_feedback_line (L.getD (b.line_start - 1 + i) "") = some "RESOLVED") ∧
  (b.has_response = true ↔ ∃ i < b.feedback_lines.length,
    is_feedback_line (L.getD (b.line_start - 1 + i) "") = some "RESPONSE") ∧
  (match firstFB L b.line_start b.feedback_lines.length with
   | some j =>
     b.severity = (parse_metadata (L.getD (b.line_start - 1 + j) "")).severity ∧
     b.reviewer = (parse_metadata (L.getD (b.line_start - 1 + j) "")).reviewer ∧
     b.date = (parse_metadata (L.getD (b.line_start - 1 + j) "")).date
   | none => b.severity = none ∧ b.reviewer = none ∧ b.date = none)

/-- The loop invariant of `parse_file` before processing line `n`. -/
structure ScanInv (L : List String) (n : Nat) (st : ParseState) : Prop where
  closed_none : st.blockStart = none →
    st.currentLines = [] ∧ st.currentBlock = false
  prev_untagged : st.currentBlock = false →
    n = 1 ∨ is_feedback_line (L.getD (n - 2) "") = none
  open_inv : ∀ s, st.blockStart = some s →
    st.currentBlock = true ∧ 1 ≤ s ∧ s + st.currentLines.length = n ∧
    st.currentLines ≠ [] ∧
    (∀ i < st.currentLines.length,
      (is_feedback_line (L.getD (s - 1 + i) "")).isSome = true ∧
      st.currentLines.getD i "" = rstrip (L.getD (s - 1 + i) "")) ∧
    (s = 1 ∨ is_feedback_line (L.getD (s - 2) "") = none) ∧
    (st.hasResolved = true ↔ ∃ i < st.currentLines.length,
      is_feedback_line (L.getD (s - 1 + i) "") = some "RESOLVED") ∧
    (st.hasResponse = true ↔ ∃ i < st.currentLines.length,
      is_feedback_line (L.getD (s - 1 + i) "") = some "RESPONSE") ∧
    (match firstFB L s st.currentLines.length with
     | some j => st.hasFeedback = true ∧
         st.metadata = parse_metadata (L.getD (s - 1 + j) "")
     | none => st.hasFeedback = false ∧ st.metadata = Metadata.empty)
  blocks_good : ∀ b ∈ st.blocks, GoodBlock L b
  blocks_before : ∀ b ∈ st.blocks, b.line_end + 2 ≤ st.blockStart.getD n
  blocks_sorted : st.blocks.Pairwise fun a b => a.line_end < b.line_start

/-! # Theorems -/

/-! ## C7 — unreadable files are skipped, the scan is unaffected -/

/-- C7: a file that cannot be read or decoded yields the empty block
list, and removing (or adding) such a file anywhere in the repository
scan leaves the blocks of all other files unchanged — in particular the
scan does not abort. -/
theorem unreadable_file_skipped :
    (∀ fp : String, parse_file fp none = []) ∧
    ∀ (pre post : List (String × Option (List String))) (p : String),
      parse_repository (pre ++ (p, none) :: post) = parse_repository (pre ++ post) := by
  refine ⟨fun fp => rfl, fun pre post p => ?_⟩
  simp [parse_repository, parse_file]

/-! ## C8 — worktree setup is idempotent on an existing path -/

/-- C8: when the declared worktree path already exists,
`create_worktree` warns that it is already present, performs no `git
worktree add` (with or without branch creation) and no symlinking, and
returns success.  The only other effect is the `mkdir(parents=True,
exist_ok=True)` of the parent directory, which does not touch the
existing path. -/
theorem create_worktree_idempotent (env : WtEnv) (h : env.pathExists = true) :
    (create_worktree env).1 = true ∧
    (create_worktree env).2 = [WtEffect.mkdirParents, WtEffect.warnExists] ∧
    WtEffect.warnExists ∈ (create_worktree env).2 ∧
    WtEffect.gitWorktreeAddExisting ∉ (create_worktree env).2 ∧
    WtEffect.gitWorktreeAddNewBranch ∉ (create_worktree env).2 ∧
    WtEffect.symlinkPlan ∉ (create_worktree env).2 := by
  simp [create_worktree, h]

/-- C8 witness at a concrete environment. -/
theorem create_worktree_idempotent_witness :
    (create_worktree ⟨true, false, true⟩).1 = true ∧
    (create_worktree ⟨true, false, true⟩).2 =
      [WtEffect.mkdirParents, WtEffect.warnExists] ∧
    WtEffect.warnExists ∈ (create_worktree ⟨true, false, true⟩).2 ∧
    WtEffect.gitWorktreeAddExisting ∉ (create_worktree ⟨true, false, true⟩).2 ∧
    WtEffect.gitWorktreeAddNewBranch ∉ (create_worktree ⟨true, false, true⟩).2 ∧
    WtEffect.symlinkPlan ∉ (create_worktree ⟨true, false, true⟩).2 :=
  create_worktree_idempotent ⟨true, false, true⟩ rfl

/-! ## C2 — allowlist precedence -/

/-- C2 counterexample: an allowlisted path whose file is a symlink with
an absolute target is excluded, so the allowlist does not take
precedence over every exclusion rule. -/
theorem allowlist_counterexample :
    matchesAllowlist cfgAllowAll fAbsLink.relPath = true ∧
    should_include_file cfgAllowAll fAbsLink = false := by
  constructor
  · decide
  · decide

/-- C2 (amended): for every file that the symlink rule does not reject
— every regular file, and every symlink the rule leaves untouched
(category disabled, checking off, or a readable relative `..`-free
target) — an allowlist match forces the decision `include`, regardless
of the size ceiling and of every enabled deny-category pattern.  The
symlink check, however, runs before the allowlist and is not overridden
by it. -/
theorem allowlist_precedence (cfg : FilterConfig) (f : FileInfo)
    (hsym : symlinkBlocked cfg f = false)
    (hallow : matchesAllowlist cfg f.relPath = true) :
    should_include_file cfg f = true := by
  simp [should_include_file, hsym, hallow]

/-- The concrete README file exceeds the 1 MB ceiling of the concrete
configuration. -/
theorem fReadme_oversized : sizeBlocked cfgReadme fReadme = true := by
  simp [sizeBlocked, cfgReadme, fReadme, FilterConfig.getFilter, decide_eq_true_iff]
  norm_num

/-- C2 witness: a regular allowlisted README that is oversized and also
matches an enabled deny pattern is still included, and so is an
allowlisted symlink with a relative `..`-free target (not rejected by
the enabled-by-default symlink rule). -/
theorem allowlist_precedence_witness :
    (fReadme.isSymlink = false ∧ symlinkBlocked cfgReadme fReadme = false ∧
      matchesAllowlist cfgReadme fReadme.relPath = true ∧
      sizeBlocked cfgReadme fReadme = true ∧
      categoryBlocked cfgReadme fReadme = true ∧
      should_include_file cfgReadme fReadme = true) ∧
    (fRelLink.isSymlink = true ∧ symlinkBlocked cfgReadme fRelLink = false ∧
      matchesAllowlist cfgReadme fRelLink.relPath = true ∧
      should_include_file cfgReadme fRelLink = true) :=
  ⟨⟨rfl, by decide, by decide, fReadme_oversized, by decide,
     allowlist_precedence cfgReadme fReadme (by decide) (by decide)⟩,
   ⟨rfl, by decide, by decide,
     allowlist_precedence cfgReadme fRelLink (by decide) (by decide)⟩⟩

/-! ## C9 — manifest keys are sanitized -/

theorem stripLit_cons_head {n c : Char} {ns t : List Char}
    (h : (stripLit (n :: ns) (c :: t)).isSome = true) : n = c := by
  by_contra hne
  simp [stripLit, hne] at h

theorem containsSeq_head_mem {n : Char} {ns l : List Char}
    (h : containsSeq (n :: ns) l = true) : n ∈ l := by
  induction l with
  | nil => simp [containsSeq, stripLit] at h
  | cons c t ih =>
    rw [containsSeq] at h
    rcases Bool.or_eq_true_iff.mp h with h1 | h2
    · exact (stripLit_cons_head h1) ▸ List.mem_cons_self c t
    · exact List.mem_cons_of_mem c (ih h2)

theorem sanitizeChar_good (c : Char) :
    ((sanitizeChar c).isAlpha || (sanitizeChar c).isDigit ||
      sanitizeChar c = '_' || sanitizeChar c = '-') = true := by
  unfold sanitizeChar
  split
  · next h => simpa using h
  · decide

/-- The character-level part of C9: a successfully derived repository
name is nonempty and made only of alphanumerics, hyphens and
underscores. -/
theorem sanitizeRawName_good {raw : List Char} {n : String}
    (h : sanitizeRawName raw = .ok n) : goodKey n := by
  unfold sanitizeRawName at h
  split_ifs at h with h1 h2
  injection h with h
  subst h
  simp only [Bool.or_eq_true, not_or] at h2
  constructor
  · intro he
    rw [String.ext_iff] at he
    simp at he
    simp [he] at h2
  · intro c hc
    simp at hc
    obtain ⟨a, -, ha⟩ := hc
    exact ha ▸ sanitizeChar_good a

theorem extract_name_good {url n : String}
    (h : extract_and_sanitize_repo_name url = .ok n) : goodKey n := by
  unfold extract_and_sanitize_repo_name at h
  split_ifs at h
  exact sanitizeRawName_good h

/-- Membership in the keys of an updated manifest. -/
theorem updateManifest_key_mem {m : Manifest} {name k : String} {e : ManifestEntry}
    (h : k ∈ (updateManifest m name e).map Prod.fst) :
    k = name ∨ k ∈ m.map Prod.fst := by
  unfold updateManifest at h
  split_ifs at h
  · simp only [List.map_map, List.mem_map] at h
    obtain ⟨kv, hkv, hk⟩ := h
    by_cases he : kv.1 = name
    · simp [Function.comp, he] at hk
      exact Or.inl hk.symm
    · simp [Function.comp, he] at hk
      exact Or.inr (hk ▸ List.mem_map_of_mem Prod.fst hkv)
  · rw [List.map_append] at h
    rcases List.mem_append.mp h with h | h
    · exact Or.inr h
    · simp at h
      exact Or.inl h

/-- C9: a name accepted by `_extract_and_sanitize_repo_name` consists
only of alphanumerics, hyphens and underscores — in particular it
contains no `/`, no `\` and no `..` — and one ingest run started from
any URL either rejects the URL before the manifest is touched or leaves
every manifest key sanitized, provided the keys already present were.
-/
theorem manifest_keys_sanitized :
    (∀ url n : String, extract_and_sanitize_repo_name url = .ok n →
      goodKey n ∧ '/' ∉ n.data ∧ '\\' ∉ n.data ∧
        containsSeq ['.', '.'] n.data = false) ∧
    (∀ (url : String) (m : Manifest) (e : ManifestEntry) (m' : Manifest),
      ingestUpdateManifest url m e = .ok m' →
      (∀ k ∈ m.map Prod.fst, goodKey k) → ∀ k ∈ m'.map Prod.fst, goodKey k) := by
  constructor
  · intro url n h
    have hg := extract_name_good h
    refine ⟨hg, ?_, ?_, ?_⟩
    · intro hmem
      have := hg.2 '/' hmem
      simp at this
    · intro hmem
      have := hg.2 '\\' hmem
      simp at this
    · by_contra hcs
      rw [Bool.not_eq_false] at hcs
      have := hg.2 '.' (containsSeq_head_mem hcs)
      simp at this
  · intro url m e m' h hkeys k hk
    unfold ingestUpdateManifest at h
    cases hext : extract_and_sanitize_repo_name url with
    | error s =>
      rw [hext] at h
      simp [Bind.bind, Except.bind] at h
    | ok name =>
      rw [hext] at h
      simp [Bind.bind, Except.bind, pure, Except.pure] at h
      subst h
      rcases updateManifest_key_mem hk with hkn | hkm
      · exact hkn ▸ extract_name_good hext
      · exact hkeys k hkm

/-- C9 witness at a concrete URL and manifest. -/
theorem manifest_keys_sanitized_witness :
    (∃ n : String, extract_and_sanitize_repo_name
        "https://github.com/grumps/my-repo" = .ok n ∧ goodKey n) ∧
    (∀ k ∈ (updateManifest [] "my-repo"
        ⟨"https://github.com/grumps/my-repo", "main", "s", "d", "t"⟩).map Prod.fst,
      goodKey k) := by
  constructor
  · refine ⟨"my-repo", by decide, ?_⟩
    have := (manifest_keys_sanitized.1 "https://github.com/grumps/my-repo"
      "my-repo" (by decide)).1
    exact this
  · intro k hk
    refine manifest_keys_sanitized.2 "https://github.com/grumps/my-repo" []
      ⟨"https://github.com/grumps/my-repo", "main", "s", "d", "t"⟩ _ ?_ ?_ k hk
    · rfl
    · intro k hk
      simp at hk

/-! ## C6 — the symlink rule versus actual target resolution -/

theorem containsSeq_tail {nd : List Char} {c : Char} {t : List Char}
    (h : containsSeq nd (c :: t) = false) : containsSeq nd t = false := by
  rw [containsSeq] at h
  exact (Bool.or_eq_false_iff.mp h).2

theorem splitSlash_ne_nil (t : List Char) : splitSlash t ≠ [] := by
  cases t with
  | nil => simp [splitSlash]
  | cons c rest =>
    rw [splitSlash]
    split
    · simp
    · match h : splitSlash rest with
      | [] => simp
      | g :: gs => simp

theorem splitSlash_head_pre {t g : List Char} {gs : List (List Char)}
    (h : splitSlash t = g :: gs) : g <+: t := by
  induction t generalizing g gs with
  | nil =>
    simp [splitSlash] at h
    simp [h.1]
  | cons c rest ih =>
    rw [splitSlash] at h
    split at h
    · injection h with h1 h2
      simp [← h1]
    · match hr : splitSlash rest with
      | [] => exact absurd hr (splitSlash_ne_nil rest)
      | g' :: gs' =>
        rw [hr] at h
        injection h with h1 h2
        subst h1
        obtain ⟨w, hw⟩ := ih hr
        exact ⟨w, by rw [List.cons_append, hw]⟩

theorem splitSlash_no_dotdot {t : List Char}
    (h : containsSeq ['.', '.'] t = false) :
    ∀ comp ∈ splitSlash t, comp ≠ ['.', '.'] := by
  induction t with
  | nil =>
    intro comp hc
    simp [splitSlash] at hc
    simp [hc]
  | cons c rest ih =>
    intro comp hc
    rw [splitSlash] at hc
    split at hc
    · rcases List.mem_cons.mp hc with h1 | h1
      · simp [h1]
      · exact ih (containsSeq_tail h) comp h1
    · match hr : splitSlash rest with
      | [] => exact absurd hr (splitSlash_ne_nil rest)
      | g' :: gs' =>
        rw [hr] at hc
        rcases List.mem_cons.mp hc with h1 | h1
        · intro hdd
          rw [h1] at hdd
          have hc2 : c = '.' ∧ g' = ['.'] := by
            have := List.cons.injEq c g' '.' ['.'] ▸ hdd
            exact ⟨(List.cons.injEq .. ▸ hdd : _ ∧ _).1,
              (List.cons.injEq .. ▸ hdd : _ ∧ _).2⟩
          obtain ⟨hcdot, hgdot⟩ := hc2
          obtain ⟨rest', hrest⟩ := (splitSlash_head_pre hr)
          rw [hgdot] at hrest
          rw [containsSeq, hcdot, ← hrest] at h
          simp [stripLit] at h
        · intro hdd
          have : comp ∈ splitSlash rest := by rw [hr]; exact List.mem_cons_of_mem g' h1
          exact ih (containsSeq_tail h) comp this hdd

theorem foldl_normStep_plain {cs : List (List Char)} (h : plainComponents cs) :
    ∀ acc, List.foldl normStep acc cs = acc ++ cs := by
  induction cs with
  | nil => simp
  | cons c t ih =>
    intro acc
    have hc := h c (List.mem_cons_self c t)
    have ht : plainComponents t := fun x hx => h x (List.mem_cons_of_mem c hx)
    rw [List.foldl_cons, normStep]
    rw [if_neg (by simp [hc.1, hc.2.1]), if_neg (by simp [hc.2.2])]
    rw [ih ht]
    simp

theorem foldl_normStep_pre {cs : List (List Char)}
    (h : ∀ comp ∈ cs, comp ≠ ['.', '.']) :
    ∀ acc, acc <+: List.foldl normStep acc cs := by
  induction cs with
  | nil => intro acc; simp
  | cons c t ih =>
    intro acc
    have ht : ∀ comp ∈ t, comp ≠ ['.', '.'] :=
      fun x hx => h x (List.mem_cons_of_mem c hx)
    rw [List.foldl_cons, normStep]
    split
    · exact ih ht acc
    · rw [if_neg (by simpa using h c (List.mem_cons_self c t))]
      exact (List.prefix_append acc [c]).trans (ih ht (acc ++ [c]))

/-- C6 (amended): when the symlink category is enabled with symlink
checking on, a symlink whose target resolves outside the source root is
excluded; but the code tests `isabs(target) or '..' in target` rather
than resolving, so the untouched symlinks are exactly those whose
target is relative and free of `..` (which always resolve inside the
root) — an absolute target is excluded even when it resolves inside the
root. -/
theorem symlink_rule (cfg : FilterConfig) (f : FileInfo)
    (root dir : List (List Char)) (t : String)
    (henabled : (cfg.getFilter "symlinks").enabled.getD true = true)
    (hcheck : (cfg.getFilter "symlinks").check_symlinks.getD true = true)
    (hlink : f.isSymlink = true)
    (htgt : f.symlinkTarget = some t)
    (hroot : plainComponents root) (hdir : plainComponents dir) :
    (resolvesOutside root dir t = true → should_include_file cfg f = false) ∧
    (isAbsPath t = false → substrB ".." t = false → symlinkBlocked cfg f = false) := by
  have habs : substrB ".." t = containsSeq ['.', '.'] t.data := rfl
  constructor
  · intro hout
    by_cases hb : symlinkBlocked cfg f = true
    · simp [should_include_file, hb]
    · exfalso
      rw [symlinkBlocked, hlink, htgt] at hb
      simp [henabled, hcheck] at hb
      obtain ⟨habs', hdd⟩ := hb
      rw [resolvesOutside, resolveTarget, if_neg (by simp [habs'])] at hout
      have hss : ∀ comp ∈ splitSlash t.data, comp ≠ ['.', '.'] :=
        splitSlash_no_dotdot (by simpa [substrB] using hdd)
      have hpre : root <+: normComponents (root ++ dir ++ splitSlash t.data) := by
        rw [normComponents, List.foldl_append]
        have h1 : List.foldl normStep [] (root ++ dir) = root ++ dir := by
          have : plainComponents (root ++ dir) := by
            intro x hx
            rcases List.mem_append.mp hx with h | h
            · exact hroot x h
            · exact hdir x h
          simpa using foldl_normStep_plain this []
        rw [h1]
        exact (List.prefix_append root dir).trans (foldl_normStep_pre hss (root ++ dir))
      rw [← List.isPrefixOf_iff_prefix] at hpre
      rw [hpre] at hout
      simp at hout
  · intro habs' hdd
    rw [symlinkBlocked, hlink, htgt]
    simp [habs']
    intro h1 h2
    simpa [substrB] using hdd

/-- C6 counterexample: the symlink at the repository root of `/repo`
with target `/repo/file` resolves inside the source root, yet the
filter excludes it through the symlink rule (its only enabled rule), so
exclusion is not characterized by resolving outside. -/
theorem symlink_rule_counterexample :
    resolvesOutside rootRepo [] "/repo/file" = false ∧
    symlinkBlocked cfgSymOnly fInsideLink = true ∧
    should_include_file cfgSymOnly fInsideLink = false := by
  refine ⟨by decide, by decide, by decide⟩

/-- C6 witness: a relative, `..`-free target is untouched by the
symlink rule, and an outside-resolving target is excluded, at concrete
inputs. -/
theorem symlink_rule_witness :
    (resolvesOutside rootRepo [] "/etc/passwd" = true →
      should_include_file cfgSymOnly fAbsLink = false) ∧
    (isAbsPath "sub/file" = false → substrB ".." "sub/file" = false →
      symlinkBlocked cfgSymOnly ⟨"lnk", true, some "sub/file", some 0⟩ = false) ∧
    resolvesOutside rootRepo [] "/etc/passwd" = true ∧
    should_include_file cfgSymOnly fAbsLink = false := by
  have h1 := symlink_rule cfgSymOnly fAbsLink rootRepo [] "/etc/passwd"
    (by decide) (by decide) (by decide) (by decide)
    (by intro x hx; fin_cases hx; simp [rootRepo])
    (by intro x hx; simp at hx)
  have h2 := symlink_rule cfgSymOnly ⟨"lnk", true, some "sub/file", some 0⟩
    rootRepo [] "sub/file"
    (by decide) (by decide) (by decide) (by decide)
    (by intro x hx; fin_cases hx; simp [rootRepo])
    (by intro x hx; simp at hx)
  exact ⟨h1.1, fun _ _ => h2.2 (by decide) (by decide), by decide,
    h1.1 (by decide)⟩

/-! ## C4 — metadata extraction -/

theorem containsSeq_cons_of_tail {nd : List Char} {c : Char} {t : List Char}
    (h : containsSeq nd t = true) : containsSeq nd (c :: t) = true := by
  rw [containsSeq]
  simp [h]

theorem stripLit_takeWhile (p : Char → Bool) (l : List Char) :
    stripLit (l.takeWhile p) l = some (l.dropWhile p) := by
  induction l with
  | nil => simp [stripLit]
  | cons d t ih =>
    by_cases hp : p d
    · rw [List.takeWhile_cons_of_pos hp, List.dropWhile_cons_of_pos hp]
      simpa [stripLit] using ih
    · rw [List.takeWhile_cons_of_neg hp, List.dropWhile_cons_of_neg hp]
      simp [stripLit]

theorem extractReviewer_spec {l : List Char} {r : String}
    (h : extractReviewer l = some r) :
    r.data ≠ [] ∧ (∀ c ∈ r.data, wordOrHyphen c = true) ∧
      containsSeq ('@' :: r.data) l = true := by
  induction l with
  | nil => simp [extractReviewer] at h
  | cons c rest ih =>
    rw [extractReviewer] at h
    split at h
    · next hc =>
      subst hc
      split at h
      · next hemp =>
        obtain ⟨h1, h2, h3⟩ := ih h
        exact ⟨h1, h2, containsSeq_cons_of_tail h3⟩
      · next hemp =>
        injection h with h
        subst h
        refine ⟨by simpa [List.isEmpty_iff] using hemp,
          fun c hc => List.mem_takeWhile_imp hc, ?_⟩
        rw [containsSeq]
        have : stripLit ('@' :: rest.takeWhile wordOrHyphen) ('@' :: rest) =
            some (rest.dropWhile wordOrHyphen) := by
          simpa [stripLit] using stripLit_takeWhile wordOrHyphen rest
        simp [String.data, this]
    · next hc =>
      obtain ⟨h1, h2, h3⟩ := ih h
      exact ⟨h1, h2, containsSeq_cons_of_tail h3⟩

theorem dateAt?_spec {l : List Char} {d : String} (h : dateAt? l = some d) :
    isYMDShape d = true ∧ (stripLit d.data l).isSome = true := by
  unfold dateAt? at h
  split at h
  · next a b c d4 e f g h10 i j rest =>
    split at h
    · next hguard =>
      injection h with h
      subst h
      refine ⟨by simpa [isYMDShape, String.data] using hguard, ?_⟩
      have hae : a = a := rfl
      simp [String.data, stripLit]
    · exact absurd h (by simp)
  · exact absurd h (by simp)

theorem extractDate_spec {l : List Char} {d : String}
    (h : extractDate l = some d) :
    isYMDShape d = true ∧ containsSeq d.data l = true := by
  induction l with
  | nil => simp [extractDate] at h
  | cons c rest ih =>
    rw [extractDate] at h
    split at h
    · next d' hd' =>
      injection h with h
      subst h
      obtain ⟨h1, h2⟩ := dateAt?_spec hd'
      refine ⟨h1, ?_⟩
      rw [containsSeq]
      simp [h2]
    · next hd' =>
      obtain ⟨h1, h2⟩ := ih h
      exact ⟨h1, containsSeq_cons_of_tail h2⟩

theorem bracket_data (s : String) :
    ("[" ++ s ++ "]").data = '[' :: s.data ++ [']'] := by
  simp [String.data_append]

/-- C4: `parse_metadata` recognizes as severity exactly the bracketed
labels of `SEVERITIES`, case-sensitively; as reviewer a nonempty run of
word characters or hyphens following an `@`; as date only a string of
shape `YYYY-MM-DD`; and the example line parsed alone yields exactly
one open block with severity CRITICAL, reviewer alice and date
2025-11-23. -/
theorem metadata_extraction :
    (∀ l s : String, (parse_metadata l).severity = some s →
      s ∈ SEVERITIES ∧ substrB ("[" ++ s ++ "]") l = true) ∧
    (∀ l : String, (parse_metadata l).severity.isSome = true ↔
      ∃ s ∈ SEVERITIES, substrB ("[" ++ s ++ "]") l = true) ∧
    (parse_metadata "# FEEDBACK [critical] (@alice, 2025-11-23): fix").severity
      = none ∧
    (∀ l r : String, (parse_metadata l).reviewer = some r →
      r ≠ "" ∧ (∀ c ∈ r.data, wordOrHyphen c = true) ∧
        substrB ("@" ++ r) l = true) ∧
    (∀ l d : String, (parse_metadata l).date = some d →
      isYMDShape d = true ∧ substrB d l = true) ∧
    parse_file_lines "x" [lineC4] =
      [⟨"x", 1, 1, [lineC4], some "CRITICAL", some "alice", some "2025-11-23",
        "open", false, false⟩] := by
  refine ⟨?_, ?_, by decide, ?_, ?_, by decide⟩
  · intro l s h
    rw [parse_metadata] at h
    simp only [extractSeverity] at h
    refine ⟨List.mem_of_find?_eq_some h, ?_⟩
    have := List.find?_some h
    rw [substrB, bracket_data]
    simpa using this
  · intro l
    rw [parse_metadata]
    simp only [extractSeverity, List.find?_isSome]
    constructor
    · rintro ⟨s, hs, hp⟩
      refine ⟨s, hs, ?_⟩
      rw [substrB, bracket_data]
      simpa using hp
    · rintro ⟨s, hs, hp⟩
      refine ⟨s, hs, ?_⟩
      rw [substrB, bracket_data] at hp
      simpa using hp
  · intro l r h
    rw [parse_metadata] at h
    obtain ⟨h1, h2, h3⟩ := extractReviewer_spec h
    refine ⟨by simpa [String.ext_iff] using h1, h2, ?_⟩
    rw [substrB]
    have : ("@" ++ r).data = '@' :: r.data := by
      simp [String.data_append]
    rw [this]
    exact h3
  · intro l d h
    rw [parse_metadata] at h
    obtain ⟨h1, h2⟩ := extractDate_spec h
    exact ⟨h1, h2⟩

/-- C4 witness: the guarantees instantiated on the example line. -/
theorem metadata_extraction_witness :
    ("CRITICAL" ∈ SEVERITIES ∧
      substrB ("[" ++ "CRITICAL" ++ "]") lineC4 = true) ∧
    ("alice" ≠ "" ∧ (∀ c ∈ "alice".data, wordOrHyphen c = true) ∧
      substrB ("@" ++ "alice") lineC4 = true) ∧
    (isYMDShape "2025-11-23" = true ∧ substrB "2025-11-23" lineC4 = true) :=
  ⟨metadata_extraction.1 lineC4 "CRITICAL" (by decide),
   metadata_extraction.2.2.2.1 lineC4 "alice" (by decide),
   metadata_extraction.2.2.2.2.1 lineC4 "2025-11-23" (by decide)⟩

/-! ## The scanner stores `rstrip`-ed lines; tag recognition is
insensitive to trailing whitespace -/

theorem dropSpaces_append_ws {ws : List Char}
    (hws : ∀ c ∈ ws, isPySpace c = true) (x : List Char) :
    dropSpaces (x ++ ws) = if dropSpaces x = [] then [] else dropSpaces x ++ ws := by
  induction x with
  | nil =>
    simp only [List.nil_append, dropSpaces]
    rw [List.dropWhile_eq_nil_iff.mpr (by intro c hc; simp [hws c hc])]
    simp
  | cons c x' ih =>
    by_cases hc : isPySpace c
    · rw [show (c :: x') ++ ws = c :: (x' ++ ws) from rfl, dropSpaces,
        List.dropWhile_cons_of_pos hc, dropSpaces, List.dropWhile_cons_of_pos hc]
      exact ih
    · rw [show (c :: x') ++ ws = c :: (x' ++ ws) from rfl, dropSpaces,
        List.dropWhile_cons_of_neg hc, dropSpaces, List.dropWhile_cons_of_neg hc]
      simp

theorem stripLit_append_ws {ws : List Char}
    (hws : ∀ c ∈ ws, isPySpace c = true) :
    ∀ op, (∀ c ∈ op, isPySpace c = false) →
    ∀ z, stripLit op (z ++ ws) = (stripLit op z).map (· ++ ws) := by
  intro op
  induction op with
  | nil => intro _ z; simp [stripLit]
  | cons c op' ih =>
    intro hop z
    cases z with
    | nil =>
      simp only [List.nil_append]
      cases ws with
      | nil => simp [stripLit]
      | cons w ws' =>
        have hcw : ¬(c = w) := by
          intro he
          have h1 := hop c (List.mem_cons_self c op')
          have h2 := hws w (List.mem_cons_self w ws')
          rw [he, h2] at h1
          exact absurd h1 (by simp)
        simp [stripLit, hcw]
    | cons d z' =>
      rw [show (d :: z') ++ ws = d :: (z' ++ ws) from rfl]
      by_cases hcd : c = d
      · rw [stripLit, stripLit, if_pos hcd, if_pos hcd]
        exact ih (fun a ha => hop a (List.mem_cons_of_mem c ha)) z'
      · simp [stripLit, hcd]

theorem matchKeyword_append_ws {ws : List Char}
    (hws : ∀ c ∈ ws, isPySpace c = true) (z : List Char) :
    matchKeyword (z ++ ws) =
      (matchKeyword z).map (fun p => (p.1, p.2 ++ ws)) := by
  rw [matchKeyword, matchKeyword, KEYWORDS]
  simp only [List.findSome?_cons, List.findSome?_nil]
  rw [stripLit_append_ws hws "FEEDBACK".data (by decide) z,
    stripLit_append_ws hws "RESPONSE".data (by decide) z,
    stripLit_append_ws hws "RESOLVED".data (by decide) z]
  cases h1 : stripLit "FEEDBACK".data z <;>
    cases h2 : stripLit "RESPONSE".data z <;>
    cases h3 : stripLit "RESOLVED".data z <;>
    simp

theorem hasCloser_ws_false {cl ws : List Char}
    (hcl : ∀ c ∈ cl, isPySpace c = false) (hcl0 : cl ≠ [])
    (hws : ∀ c ∈ ws, isPySpace c = true) : hasCloser cl ws = false := by
  induction ws with
  | nil =>
    cases cl with
    | nil => exact absurd rfl hcl0
    | cons c cl' => simp [hasCloser, stripLit]
  | cons w ws' ih =>
    rw [hasCloser]
    cases cl with
    | nil => exact absurd rfl hcl0
    | cons c cl' =>
      have hcw : ¬(c = w) := by
        intro he
        have h1 := hcl c (List.mem_cons_self c cl')
        have h2 := hws w (List.mem_cons_self w ws')
        rw [he, h2] at h1
        exact absurd h1 (by simp)
      rw [ih (fun a ha => hws a (List.mem_cons_of_mem w ha))]
      simp [stripLit, hcw]

theorem hasCloser_append_ws {cl ws : List Char}
    (hcl : ∀ c ∈ cl, isPySpace c = false) (hcl0 : cl ≠ [])
    (hws : ∀ c ∈ ws, isPySpace c = true) :
    ∀ r, hasCloser cl (r ++ ws) = hasCloser cl r := by
  intro r
  induction r with
  | nil =>
    rw [List.nil_append, hasCloser_ws_false hcl hcl0 hws]
    cases cl with
    | nil => exact absurd rfl hcl0
    | cons c cl' => simp [hasCloser, stripLit]
  | cons d r' ih =>
    rw [show (d :: r') ++ ws = d :: (r' ++ ws) from rfl, hasCloser, hasCloser]
    have : stripLit cl ((d :: r') ++ ws) = (stripLit cl (d :: r')).map (· ++ ws) :=
      stripLit_append_ws hws cl hcl (d :: r')
    rw [show d :: (r' ++ ws) = (d :: r') ++ ws from rfl, this, ih]
    cases stripLit cl (d :: r') <;> simp

theorem matchOpen_append_ws {op ws : List Char}
    (hop : ∀ c ∈ op, isPySpace c = false) (hop0 : op ≠ [])
    (hws : ∀ c ∈ ws, isPySpace c = true) (x : List Char) :
    matchOpen op (x ++ ws) = (matchOpen op x).map (· ++ ws) := by
  rw [matchOpen, matchOpen, dropSpaces_append_ws hws x]
  split
  · next h =>
    rw [h]
    cases op with
    | nil => exact absurd rfl hop0
    | cons c op' => simp [stripLit]
  · exact stripLit_append_ws hws op hop _

theorem matchSimple_append_ws {op ws : List Char}
    (hop : ∀ c ∈ op, isPySpace c = false) (hop0 : op ≠ [])
    (hws : ∀ c ∈ ws, isPySpace c = true) (x : List Char) :
    matchSimple op (x ++ ws) = matchSimple op x := by
  rw [matchSimple, matchSimple, matchOpen_append_ws hop hop0 hws x]
  cases h : matchOpen op x with
  | none => simp
  | some rest =>
    simp only [Option.map_some']
    rw [dropSpaces_append_ws hws rest]
    split
    · next hdr => rw [hdr]
    · rw [matchKeyword_append_ws hws]
      cases hk : matchKeyword (dropSpaces rest) <;> simp

theorem matchClosed_append_ws {op cl ws : List Char}
    (hop : ∀ c ∈ op, isPySpace c = false) (hop0 : op ≠ [])
    (hcl : ∀ c ∈ cl, isPySpace c = false) (hcl0 : cl ≠ [])
    (hws : ∀ c ∈ ws, isPySpace c = true) (x : List Char) :
    matchClosed op cl (x ++ ws) = matchClosed op cl x := by
  rw [matchClosed, matchClosed, matchOpen_append_ws hop hop0 hws x]
  cases h : matchOpen op x with
  | none => simp
  | some rest =>
    simp only [Option.map_some']
    rw [dropSpaces_append_ws hws rest]
    by_cases hdr : dropSpaces rest = []
    · rw [if_pos hdr, hdr]
    · rw [if_neg hdr, matchKeyword_append_ws hws]
      cases hk : matchKeyword (dropSpaces rest) with
      | none => simp
      | some p =>
        simp only [Option.map_some']
        rw [hasCloser_append_ws hcl hcl0 hws p.2]

theorem rstripList_decomp (l : List Char) :
    ∃ ws, l = rstripList l ++ ws ∧ ∀ c ∈ ws, isPySpace c = true := by
  refine ⟨(l.reverse.takeWhile isPySpace).reverse, ?_, ?_⟩
  · rw [rstripList]
    conv_lhs => rw [← List.reverse_reverse l,
      ← List.takeWhile_append_dropWhile isPySpace l.reverse]
    rw [List.reverse_append]
  · intro c hc
    rw [List.mem_reverse] at hc
    exact List.mem_takeWhile_imp hc

/-- Trailing whitespace never affects tag recognition, so the
`rstrip`-ed lines stored in a block carry the same tags as the physical
lines they came from. -/
theorem tag_rstrip (s : String) :
    is_feedback_line (rstrip s) = is_feedback_line s := by
  obtain ⟨ws, hdecomp, hws⟩ := rstripList_decomp s.data
  rw [is_feedback_line, is_feedback_line]
  have hd : (rstrip s).data = rstripList s.data := rfl
  rw [hd]
  conv_rhs => rw [hdecomp]
  rw [matchSimple_append_ws (by decide) (by decide) hws,
    matchSimple_append_ws (by decide) (by decide) hws,
    matchClosed_append_ws (by decide) (by decide) (by decide) (by decide) hws,
    matchClosed_append_ws (by decide) (by decide) (by decide) (by decide) hws]

/-! ## The scanner invariant: maintenance lemmas -/

theorem getD_snoc_len (xs : List String) (x : String) :
    (xs ++ [x]).getD xs.length "" = x := by
  rw [List.getD_append_right _ _ _ _ le_rfl]
  simp

theorem firstFB_succ (L : List String) (s k : Nat) :
    firstFB L s (k + 1) =
      (firstFB L s k).or
        (if is_feedback_line (L.getD (s - 1 + k) "") = some "FEEDBACK"
         then some k else none) := by
  rw [firstFB, firstFB, List.range_succ, List.find?_append]
  cases hb : (is_feedback_line (L.getD (s - 1 + k) "") == some "FEEDBACK") with
  | false =>
    have h : ¬is_feedback_line (L.getD (s - 1 + k) "") = some "FEEDBACK" := by
      simpa using hb
    simp only [List.getD_eq_getElem?_getD] at hb h ⊢
    simp [List.find?, hb, h]
  | true =>
    have h : is_feedback_line (L.getD (s - 1 + k) "") = some "FEEDBACK" := by
      simpa using hb
    simp only [List.getD_eq_getElem?_getD] at hb h ⊢
    simp [List.find?, hb, h]

/-- Closing the open block (either at a non-tagged line `n` with
`n - 1 < L.length`, or at end of input with `n = L.length + 1`)
preserves all block-level guarantees and empties the in-block state. -/
theorem closeBlock_good (fp : String) {L : List String} {n : Nat} {st : ParseState}
    (inv : ScanInv L n st)
    (hend : n = L.length + 1 ∨
      (n - 1 < L.length ∧ is_feedback_line (L.getD (n - 1) "") = none)) :
    (∀ b ∈ (closeBlock fp st).blocks, GoodBlock L b) ∧
    ((closeBlock fp st).blocks.Pairwise fun a b => a.line_end < b.line_start) ∧
    (∀ b ∈ (closeBlock fp st).blocks, b.line_end + 2 ≤ n + 1) ∧
    (closeBlock fp st).currentLines = [] ∧
    (closeBlock fp st).currentBlock = false ∧
    (closeBlock fp st).blockStart = none := by
  cases hbs : st.blockStart with
  | none =>
    obtain ⟨hcl, hcb⟩ := inv.closed_none hbs
    rw [closeBlock, hbs]
    refine ⟨inv.blocks_good, inv.blocks_sorted, ?_, hcl, hcb, hbs⟩
    intro b hb
    have hbd := inv.blocks_before b hb
    rw [hbs] at hbd
    simp only [Option.getD_none] at hbd
    omega
  | some s =>
    obtain ⟨hcb, hs1, hsk, hne, hrun, hleft, hres, hresp, hmeta⟩ := inv.open_inv s hbs
    have hk1 : 1 ≤ st.currentLines.length := List.length_pos.mpr hne
    have hie : st.currentLines.isEmpty = false := by
      simpa [List.isEmpty_iff] using hne
    simp only [closeBlock, hbs, hie, Bool.false_eq_true, if_false,
      List.mem_append, List.mem_singleton]
    have hold : ∀ b ∈ st.blocks, b.line_end + 2 ≤ s := by
      intro b hb
      have hbd := inv.blocks_before b hb
      rw [hbs] at hbd
      simpa using hbd
    constructor
    · rintro b (hb | rfl)
      · exact inv.blocks_good b hb
      · refine ⟨hs1, by simp only; omega, hne, ?_, hrun, hleft,
          ?_, rfl, hres, hresp, ?_⟩
        · simp only
          rcases hend with hEof | ⟨hlt, -⟩ <;> omega
        · simp only
          rcases hend with hEof | ⟨hlt, htag⟩
          · left; omega
          · right
            have he : s + st.currentLines.length - 1 = n - 1 := by omega
            rw [he]
            exact htag
        · simp only
          cases hfb : firstFB L s st.currentLines.length with
          | some j =>
            rw [hfb] at hmeta
            exact ⟨congrArg Metadata.severity hmeta.2,
              congrArg Metadata.reviewer hmeta.2, congrArg Metadata.date hmeta.2⟩
          | none =>
            rw [hfb] at hmeta
            rw [hmeta.2]
            exact ⟨rfl, rfl, rfl⟩
    · refine ⟨?_, ?_, by trivial, by trivial, by trivial⟩
      · rw [List.pairwise_append]
        refine ⟨inv.blocks_sorted, List.pairwise_singleton .., ?_⟩
        intro a ha b hb
        rw [List.mem_singleton] at hb
        subst hb
        have := hold a ha
        simp only
        omega
      · rintro b (hb | rfl)
        · have := hold b hb
          omega
        · simp only
          omega

theorem firstFB_zero (L : List String) (s : Nat) : firstFB L s 0 = none := by
  simp [firstFB]

/-- Appending the `rstrip`-ed current line extends the stored-line
correspondence of an open block. -/
theorem run_extend {L : List String} {n s : Nat} {cur : List String} {l : String}
    (hl : L.getD (n - 1) "" = l) (hs1 : 1 ≤ s) (hsk : s + cur.length = n)
    (htag : (is_feedback_line l).isSome = true)
    (hrun : ∀ i < cur.length,
      (is_feedback_line (L.getD (s - 1 + i) "")).isSome = true ∧
      cur.getD i "" = rstrip (L.getD (s - 1 + i) "")) :
    ∀ i < (cur ++ [rstrip l]).length,
      (is_feedback_line (L.getD (s - 1 + i) "")).isSome = true ∧
      (cur ++ [rstrip l]).getD i "" = rstrip (L.getD (s - 1 + i) "") := by
  intro i hi
  rw [List.length_append, List.length_singleton] at hi
  by_cases hik : i < cur.length
  · rw [List.getD_append _ _ _ _ hik]
    exact hrun i hik
  · have hieq : i = cur.length := by omega
    subst hieq
    have hidx : s - 1 + cur.length = n - 1 := by omega
    rw [hidx, hl, getD_snoc_len]
    exact ⟨htag, rfl⟩

/-- A tag is present in the extended block iff it was present before or
the new line carries it. -/
theorem exists_tag_extend {L : List String} {n s k : Nat} {l t : String}
    (hl : L.getD (n - 1) "" = l) (hs1 : 1 ≤ s) (hsk : s + k = n) :
    (∃ i < k + 1, is_feedback_line (L.getD (s - 1 + i) "") = some t) ↔
      ((∃ i < k, is_feedback_line (L.getD (s - 1 + i) "") = some t) ∨
        is_feedback_line l = some t) := by
  constructor
  · rintro ⟨i, hi, hti⟩
    by_cases hik : i < k
    · exact Or.inl ⟨i, hik, hti⟩
    · have hik2 : i = k := by omega
      rw [hik2, show s - 1 + k = n - 1 by omega, hl] at hti
      exact Or.inr hti
  · rintro (⟨i, hi, hti⟩ | htl)
    · exact ⟨i, by omega, hti⟩
    · exact ⟨k, by omega, by rw [show s - 1 + k = n - 1 by omega, hl]; exact htl⟩

/-- The open-block part of the invariant after an open (or freshly
opened) block absorbs one more tagged line.  The flag and metadata
hypotheses are phrased so that every branch of the tag dispatch of
`processLine` can discharge them. -/
theorem open_inv_extend {L : List String} {n s : Nat} {cur : List String}
    {l ct : String} {res resp hf : Bool} {md : Metadata}
    (hl : L.getD (n - 1) "" = l) (hs1 : 1 ≤ s) (hsk : s + cur.length = n)
    (hrun : ∀ i < cur.length,
      (is_feedback_line (L.getD (s - 1 + i) "")).isSome = true ∧
      cur.getD i "" = rstrip (L.getD (s - 1 + i) ""))
    (hleft : s = 1 ∨ is_feedback_line (L.getD (s - 2) "") = none)
    (htag : is_feedback_line l = some ct)
    (hres : res = true ↔
      (∃ i < cur.length, is_feedback_line (L.getD (s - 1 + i) "") = some "RESOLVED")
        ∨ ct = "RESOLVED")
    (hresp : resp = true ↔
      (∃ i < cur.length, is_feedback_line (L.getD (s - 1 + i) "") = some "RESPONSE")
        ∨ ct = "RESPONSE")
    (hmeta : match firstFB L s (cur.length + 1) with
      | some j => hf = true ∧ md = parse_metadata (L.getD (s - 1 + j) "")
      | none => hf = false ∧ md = Metadata.empty) :
    1 ≤ s ∧ s + (cur ++ [rstrip l]).length = n + 1 ∧ cur ++ [rstrip l] ≠ [] ∧
    (∀ i < (cur ++ [rstrip l]).length,
      (is_feedback_line (L.getD (s - 1 + i) "")).isSome = true ∧
      (cur ++ [rstrip l]).getD i "" = rstrip (L.getD (s - 1 + i) "")) ∧
    (s = 1 ∨ is_feedback_line (L.getD (s - 2) "") = none) ∧
    (res = true ↔ ∃ i < (cur ++ [rstrip l]).length,
      is_feedback_line (L.getD (s - 1 + i) "") = some "RESOLVED") ∧
    (resp = true ↔ ∃ i < (cur ++ [rstrip l]).length,
      is_feedback_line (L.getD (s - 1 + i) "") = some "RESPONSE") ∧
    (match firstFB L s (cur ++ [rstrip l]).length with
      | some j => hf = true ∧ md = parse_metadata (L.getD (s - 1 + j) "")
      | none => hf = false ∧ md = Metadata.empty) := by
  have hlen : (cur ++ [rstrip l]).length = cur.length + 1 := by
    rw [List.length_append, List.length_singleton]
  refine ⟨hs1, by omega, by simp, run_extend hl hs1 hsk (by rw [htag]; rfl) hrun,
    hleft, ?_, ?_, ?_⟩
  · rw [hlen, exists_tag_extend hl hs1 hsk, hres, htag]
    constructor
    · rintro (h | h)
      · exact Or.inl h
      · exact Or.inr (by rw [h])
    · rintro (h | h)
      · exact Or.inl h
      · exact Or.inr (by injection h)
  · rw [hlen, exists_tag_extend hl hs1 hsk, hresp, htag]
    constructor
    · rintro (h | h)
      · exact Or.inl h
      · exact Or.inr (by rw [h])
    · rintro (h | h)
      · exact Or.inl h
      · exact Or.inr (by injection h)
  · rw [hlen]
    exact hmeta

/-- Rebuild the invariant for a state with an open block given its
components. -/
theorem scan_inv_mk {L : List String} {n : Nat}
    {blocks : List FeedbackBlock} {cur : List String} {s : Nat}
    {hf resp res : Bool} {md : Metadata}
    (hopen : 1 ≤ s ∧ s + cur.length = n ∧ cur ≠ [] ∧
      (∀ i < cur.length,
        (is_feedback_line (L.getD (s - 1 + i) "")).isSome = true ∧
        cur.getD i "" = rstrip (L.getD (s - 1 + i) "")) ∧
      (s = 1 ∨ is_feedback_line (L.getD (s - 2) "") = none) ∧
      (res = true ↔ ∃ i < cur.length,
        is_feedback_line (L.getD (s - 1 + i) "") = some "RESOLVED") ∧
      (resp = true ↔ ∃ i < cur.length,
        is_feedback_line (L.getD (s - 1 + i) "") = some "RESPONSE") ∧
      (match firstFB L s cur.length with
        | some j => hf = true ∧ md = parse_metadata (L.getD (s - 1 + j) "")
        | none => hf = false ∧ md = Metadata.empty))
    (hg : ∀ b ∈ blocks, GoodBlock L b)
    (hbd : ∀ b ∈ blocks, b.line_end + 2 ≤ s)
    (hsort : blocks.Pairwise fun a b => a.line_end < b.line_start) :
    ScanInv L n ⟨blocks, true, cur, some s, hf, resp, res, md⟩ := by
  refine ⟨?_, ?_, ?_, hg, ?_, hsort⟩
  · intro h
    exact absurd h (by simp)
  · intro h
    exact absurd h (by simp)
  · intro s' hs'
    have hss : s' = s := by
      have : some s = some s' := hs'
      injection this with h
      exact h.symm
    subst hss
    exact ⟨rfl, hopen⟩
  · intro b hb
    simpa using hbd b hb

/-- One loop iteration preserves the invariant. -/
theorem scan_step (fp : String) (L : List String) (n : Nat) (st : ParseState)
    (l : String) (hl : L.getD (n - 1) "" = l) (hn : 1 ≤ n)
    (hlt : n - 1 < L.length) (inv : ScanInv L n st) :
    ScanInv L (n + 1) (processLine fp st n l) := by
  cases htag : is_feedback_line l with
  | none =>
    have hred : processLine fp st n l = closeBlock fp st := by
      rw [processLine, htag]
    rw [hred]
    obtain ⟨hg, hsort, hbound, hcl, hcb, hbs⟩ :=
      closeBlock_good fp inv (Or.inr ⟨hlt, by rw [hl]; exact htag⟩)
    refine ⟨fun _ => ⟨hcl, hcb⟩, ?_, ?_, hg, ?_, hsort⟩
    · intro _
      right
      rw [show n + 1 - 2 = n - 1 by omega, hl]
      exact htag
    · intro s hbs'
      rw [hbs] at hbs'
      exact absurd hbs' (by simp)
    · intro b hb
      rw [hbs]
      simpa using hbound b hb
  | some ct =>
    by_cases hcb : st.currentBlock = true
    · -- continuing an open block
      cases hbs : st.blockStart with
      | none => exact absurd (inv.closed_none hbs).2 (by rw [hcb]; simp)
      | some s =>
        obtain ⟨-, hs1, hsk, hne, hrun, hleft, hres, hresp, hmeta⟩ :=
          inv.open_inv s hbs
        have hg := inv.blocks_good
        have hsort := inv.blocks_sorted
        have hbd : ∀ b ∈ st.blocks, b.line_end + 2 ≤ s := by
          intro b hb
          have := inv.blocks_before b hb
          rw [hbs] at this
          simpa using this
        have hidx : s - 1 + st.currentLines.length = n - 1 := by
          clear hrun hres hresp hmeta hbd hg hsort inv
          omega
        by_cases hctF : ct = "FEEDBACK"
        · subst hctF
          by_cases hHF : st.hasFeedback = true
          · -- FEEDBACK on a block that already has one: no state change
            have hst : processLine fp st n l =
                ⟨st.blocks, true, st.currentLines ++ [rstrip l], some s,
                  st.hasFeedback, st.hasResponse, st.hasResolved, st.metadata⟩ := by
              rw [processLine, htag]
              simp [hcb, hbs, hHF]
            rw [hst]
            refine scan_inv_mk (open_inv_extend hl hs1 hsk hrun hleft htag
              ?_ ?_ ?_) hg hbd hsort
            · rw [hres]
              simp
            · rw [hresp]
              simp
            · cases hfb : firstFB L s st.currentLines.length with
              | none =>
                rw [hfb] at hmeta
                exact absurd hHF (by rw [hmeta.1]; simp)
              | some j =>
                rw [hfb] at hmeta
                rw [firstFB_succ, hfb]
                exact hmeta
          · -- first FEEDBACK line of the block: metadata is parsed here
            have hst : processLine fp st n l =
                ⟨st.blocks, true, st.currentLines ++ [rstrip l], some s,
                  true, st.hasResponse, st.hasResolved, parse_metadata l⟩ := by
              rw [processLine, htag]
              simp [hcb, hbs, hHF]
            rw [hst]
            refine scan_inv_mk (open_inv_extend hl hs1 hsk hrun hleft htag
              ?_ ?_ ?_) hg hbd hsort
            · rw [hres]
              simp
            · rw [hresp]
              simp
            · cases hfb : firstFB L s st.currentLines.length with
              | some j =>
                rw [hfb] at hmeta
                exact absurd hmeta.1 hHF
              | none =>
                rw [firstFB_succ, hfb, hidx, hl, htag]
                simp only [if_pos rfl, Option.none_or]
                exact ⟨by simp, by rw [hidx, hl]⟩
        · by_cases hctResp : ct = "RESPONSE"
          · subst hctResp
            have hst : processLine fp st n l =
                ⟨st.blocks, true, st.currentLines ++ [rstrip l], some s,
                  st.hasFeedback, true, st.hasResolved, st.metadata⟩ := by
              rw [processLine, htag]
              simp [hcb, hbs]
            rw [hst]
            refine scan_inv_mk (open_inv_extend hl hs1 hsk hrun hleft htag
              ?_ ?_ ?_) hg hbd hsort
            · rw [hres]
              simp
            · simp
            · rw [firstFB_succ, hidx, hl, htag]
              rw [if_neg (by simp), Option.or_none]
              exact hmeta
          · by_cases hctRes : ct = "RESOLVED"
            · subst hctRes
              have hst : processLine fp st n l =
                  ⟨st.blocks, true, st.currentLines ++ [rstrip l], some s,
                    st.hasFeedback, st.hasResponse, true, st.metadata⟩ := by
                rw [processLine, htag]
                simp [hcb, hbs]
              rw [hst]
              refine scan_inv_mk (open_inv_extend hl hs1 hsk hrun hleft htag
                ?_ ?_ ?_) hg hbd hsort
              · simp
              · rw [hresp]
                simp
              · rw [firstFB_succ, hidx, hl, htag]
                rw [if_neg (by simp), Option.or_none]
                exact hmeta
            · -- a tag outside the three keywords: no flag changes
              have hst : processLine fp st n l =
                  ⟨st.blocks, true, st.currentLines ++ [rstrip l], some s,
                    st.hasFeedback, st.hasResponse, st.hasResolved, st.metadata⟩ := by
                rw [processLine, htag]
                simp [hcb, hbs, hctF, hctResp, hctRes]
              rw [hst]
              refine scan_inv_mk (open_inv_extend hl hs1 hsk hrun hleft htag
                ?_ ?_ ?_) hg hbd hsort
              · rw [hres]
                simp [hctRes]
              · rw [hresp]
                simp [hctResp]
              · rw [firstFB_succ, hidx, hl, htag]
                rw [if_neg (by simp [hctF]), Option.or_none]
                exact hmeta
    · -- opening a new block at line n
      have hcb' : st.currentBlock = false := by
        cases h : st.currentBlock
        · rfl
        · exact absurd h hcb
      have hbs : st.blockStart = none := by
        cases h : st.blockStart with
        | none => rfl
        | some s => exact absurd (inv.open_inv s h).1 hcb
      obtain ⟨hcl, -⟩ := inv.closed_none hbs
      have hleft : n = 1 ∨ is_feedback_line (L.getD (n - 2) "") = none :=
        inv.prev_untagged hcb'
      have hg := inv.blocks_good
      have hsort := inv.blocks_sorted
      have hbd : ∀ b ∈ st.blocks, b.line_end + 2 ≤ n := by
        intro b hb
        have := inv.blocks_before b hb
        rw [hbs] at this
        simpa using this
      have hsk : n + ([] : List String).length = n := by simp
      have hrun0 : ∀ i < ([] : List String).length,
          (is_feedback_line (L.getD (n - 1 + i) "")).isSome = true ∧
          ([] : List String).getD i "" = rstrip (L.getD (n - 1 + i) "") := by
        intro i hi
        exact absurd hi (by simp)
      have hidx0 : n - 1 + ([] : List String).length = n - 1 := by simp
      by_cases hctF : ct = "FEEDBACK"
      · subst hctF
        have hst : processLine fp st n l =
            ⟨st.blocks, true, [] ++ [rstrip l], some n,
              true, false, false, parse_metadata l⟩ := by
          rw [processLine, htag]
          simp [hcb', hcl]
        rw [hst]
        refine scan_inv_mk (open_inv_extend hl hn hsk hrun0 hleft htag
          ?_ ?_ ?_) hg hbd hsort
        · simp
        · simp
        · simp only [List.length_nil]
          rw [firstFB_succ, firstFB_zero, Nat.add_zero, hl, htag]
          simp only [if_pos rfl, Option.none_or]
          exact ⟨by simp, by rw [Nat.add_zero, hl]⟩
      · by_cases hctResp : ct = "RESPONSE"
        · subst hctResp
          have hst : processLine fp st n l =
              ⟨st.blocks, true, [] ++ [rstrip l], some n,
                false, true, false, Metadata.empty⟩ := by
            rw [processLine, htag]
            simp [hcb', hcl]
          rw [hst]
          refine scan_inv_mk (open_inv_extend hl hn hsk hrun0 hleft htag
            ?_ ?_ ?_) hg hbd hsort
          · simp
          · simp
          · simp only [List.length_nil]
            rw [firstFB_succ, firstFB_zero, Nat.add_zero, hl, htag]
            rw [if_neg (by simp)]
            simp
        · by_cases hctRes : ct = "RESOLVED"
          · subst hctRes
            have hst : processLine fp st n l =
                ⟨st.blocks, true, [] ++ [rstrip l], some n,
                  false, false, true, Metadata.empty⟩ := by
              rw [processLine, htag]
              simp [hcb', hcl]
            rw [hst]
            refine scan_inv_mk (open_inv_extend hl hn hsk hrun0 hleft htag
              ?_ ?_ ?_) hg hbd hsort
            · simp
            · simp
            · simp only [List.length_nil]
              rw [firstFB_succ, firstFB_zero, Nat.add_zero, hl, htag]
              rw [if_neg (by simp)]
              simp
          · have hst : processLine fp st n l =
                ⟨st.blocks, true, [] ++ [rstrip l], some n,
                  false, false, false, Metadata.empty⟩ := by
              rw [processLine, htag]
              simp [hcb', hcl, hctF, hctResp, hctRes]
            rw [hst]
            refine scan_inv_mk (open_inv_extend hl hn hsk hrun0 hleft htag
              ?_ ?_ ?_) hg hbd hsort
            · simp [hctRes]
            · simp [hctResp]
            · simp only [List.length_nil]
              rw [firstFB_succ, firstFB_zero, Nat.add_zero, hl, htag]
              rw [if_neg (by simp [hctF])]
              simp

/-- The invariant holds initially. -/
theorem scan_inv_init (L : List String) : ScanInv L 1 initState := by
  refine ⟨fun _ => ⟨rfl, rfl⟩, fun _ => Or.inl rfl, ?_, ?_, ?_, ?_⟩
  · intro s hs
    exact absurd hs (by simp [initState])
  · intro b hb
    exact absurd hb (by simp [initState])
  · intro b hb
    exact absurd hb (by simp [initState])
  · exact List.Pairwise.nil

/-- Running the loop over the remaining lines preserves the
invariant. -/
theorem scan_run (fp : String) (L : List String) :
    ∀ (rest : List String) (n : Nat) (st : ParseState),
      L.drop (n - 1) = rest → 1 ≤ n → ScanInv L n st →
      ScanInv L (n + rest.length) (parseLines fp rest n st) := by
  intro rest
  induction rest with
  | nil =>
    intro n st _ _ inv
    simpa [parseLines] using inv
  | cons l ls ih =>
    intro n st hdrop hn inv
    have hlen : (L.drop (n - 1)).length = L.length - (n - 1) :=
      List.length_drop _ _
    rw [hdrop] at hlen
    have hlt : n - 1 < L.length := by
      simp only [List.length_cons] at hlen
      omega
    have hget : L.getD (n - 1) "" = l := by
      rw [List.getD_eq_getElem?_getD]
      have h0 : (L.drop (n - 1))[0]? = L[n - 1 + 0]? := List.getElem?_drop L (n - 1) 0
      rw [hdrop] at h0
      simp at h0
      rw [← h0]
      rfl
    have hdrop' : L.drop ((n + 1) - 1) = ls := by
      have ht : (L.drop (n - 1)).tail = L.drop (n - 1 + 1) := List.tail_drop L (n - 1)
      rw [hdrop] at ht
      simp at ht
      rw [show (n + 1) - 1 = n - 1 + 1 by omega, ← ht]
    rw [parseLines]
    have inv' := scan_step fp L n st l hget hn hlt inv
    have := ih (n + 1) _ hdrop' (by omega) inv'
    rw [show n + (l :: ls).length = (n + 1) + ls.length by simp; omega]
    exact this

/-- Every block emitted by `parse_file` satisfies `GoodBlock`, and the
blocks appear in strictly increasing, pairwise disjoint line order. -/
theorem parse_file_lines_good (fp : String) (L : List String) :
    (∀ b ∈ parse_file_lines fp L, GoodBlock L b) ∧
    ((parse_file_lines fp L).Pairwise fun a b => a.line_end < b.line_start) := by
  have hinv : ScanInv L (L.length + 1) (parseLines fp L 1 initState) := by
    have := scan_run fp L L 1 initState (by simp) le_rfl (scan_inv_init L)
    rwa [Nat.add_comm] at this
  obtain ⟨hg, hsort, -, -, -, -⟩ :=
    closeBlock_good fp hinv (Or.inl rfl)
  exact ⟨hg, hsort⟩

/-! ## C10 — block ranges are consistent, ordered and disjoint -/

/-- C10: every emitted block satisfies
`line_end = line_start + |feedback_lines| - 1` with `line_start ≥ 1`,
and the blocks of one file appear in strictly increasing line order
with pairwise disjoint ranges. -/
theorem block_ranges (fp : String) (L : List String) :
    (∀ b ∈ parse_file_lines fp L,
      1 ≤ b.line_start ∧
      b.line_end + 1 = b.line_start + b.feedback_lines.length ∧
      b.line_end = b.line_start + b.feedback_lines.length - 1 ∧
      b.line_start ≤ b.line_end) ∧
    ((parse_file_lines fp L).Pairwise fun a b => a.line_end < b.line_start) := by
  obtain ⟨hg, hsort⟩ := parse_file_lines_good fp L
  refine ⟨?_, hsort⟩
  intro b hb
  obtain ⟨h1, h2, h3, -, -, -, -, -, -, -, -⟩ := hg b hb
  have hlen : 1 ≤ b.feedback_lines.length := List.length_pos.mpr h3
  omega

/-- C10 witness at a concrete two-block file. -/
theorem block_ranges_witness :
    1 ≤ blockTwo.line_start ∧
    blockTwo.line_end + 1 = blockTwo.line_start + blockTwo.feedback_lines.length ∧
    blockTwo.line_end = blockTwo.line_start + blockTwo.feedback_lines.length - 1 ∧
    blockTwo.line_start ≤ blockTwo.line_end :=
  (block_ranges "t" linesTwo).1 blockTwo (by decide)

/-! ## C3 — reported line numbers delimit the tagged run exactly -/

/-- C3: `line_start`/`line_end` are exactly the 1-based physical line
numbers of the first and last line of the contiguous tagged run the
block was built from: every line in the range is tagged, the line
before the range (if any) is not tagged, and the range ends either at a
non-tagged line or at end-of-file. -/
theorem block_line_numbers (fp : String) (L : List String) (b : FeedbackBlock)
    (hb : b ∈ parse_file_lines fp L) :
    1 ≤ b.line_start ∧ b.line_start ≤ b.line_end ∧ b.line_end ≤ L.length ∧
    (∀ m, b.line_start ≤ m → m ≤ b.line_end →
      (is_feedback_line (L.getD (m - 1) "")).isSome = true) ∧
    (b.line_start = 1 ∨ is_feedback_line (L.getD (b.line_start - 2) "") = none) ∧
    (b.line_end = L.length ∨ is_feedback_line (L.getD b.line_end "") = none) ∧
    (∀ i < b.feedback_lines.length,
      b.feedback_lines.getD i "" = rstrip (L.getD (b.line_start - 1 + i) "")) := by
  obtain ⟨hg, -⟩ := parse_file_lines_good fp L
  obtain ⟨h1, h2, h3, h4, h5, h6, h7, -, -, -, -⟩ := hg b hb
  have hlen : 1 ≤ b.feedback_lines.length := List.length_pos.mpr h3
  refine ⟨h1, by omega, h4, ?_, h6, h7, fun i hi => (h5 i hi).2⟩
  intro m hm1 hm2
  have hi : m - b.line_start < b.feedback_lines.length := by omega
  have := (h5 (m - b.line_start) hi).1
  rwa [show b.line_start - 1 + (m - b.line_start) = m - 1 by omega] at this

/-- C3 witness on a run terminated by end-of-file. -/
theorem block_line_numbers_witness :
    1 ≤ blockEof.line_start ∧ blockEof.line_start ≤ blockEof.line_end ∧
    blockEof.line_end ≤ linesEof.length ∧
    (∀ m, blockEof.line_start ≤ m → m ≤ blockEof.line_end →
      (is_feedback_line (linesEof.getD (m - 1) "")).isSome = true) ∧
    (blockEof.line_start = 1 ∨
      is_feedback_line (linesEof.getD (blockEof.line_start - 2) "") = none) ∧
    (blockEof.line_end = linesEof.length ∨
      is_feedback_line (linesEof.getD blockEof.line_end "") = none) ∧
    (∀ i < blockEof.feedback_lines.length,
      blockEof.feedback_lines.getD i "" =
        rstrip (linesEof.getD (blockEof.line_start - 1 + i) "")) :=
  block_line_numbers "t" linesEof blockEof (by decide)

/-! ## C5 — when the metadata is parsed -/

/-- C5 counterexample: a block opened by a RESOLVED line whose second
line is the first FEEDBACK line.  The emitted block carries severity
CRITICAL taken from line 2, while the line that opened the block (line
1) has no severity, so the metadata is not parsed from the first line
that opened the block. -/
theorem metadata_opening_line_counterexample :
    (parse_file_lines "f" linesC5).map (fun b => (b.line_start, b.severity)) =
      [(1, some "CRITICAL")] ∧
    (parse_metadata (linesC5.getD 0 "")).severity = none := by
  exact ⟨by decide, by decide⟩

/-- C5 (amended): the metadata of a block is parsed exactly once, from
the block's first FEEDBACK-tagged line (no metadata at all when the
block has no FEEDBACK line), and later lines never overwrite it; in
particular, when the line that opened the block carries the FEEDBACK
tag, the metadata does come from that opening line. -/
theorem metadata_once (fp : String) (L : List String) (b : FeedbackBlock)
    (hb : b ∈ parse_file_lines fp L) :
    (match firstFB L b.line_start b.feedback_lines.length with
     | some j =>
       b.severity = (parse_metadata (L.getD (b.line_start - 1 + j) "")).severity ∧
       b.reviewer = (parse_metadata (L.getD (b.line_start - 1 + j) "")).reviewer ∧
       b.date = (parse_metadata (L.getD (b.line_start - 1 + j) "")).date
     | none => b.severity = none ∧ b.reviewer = none ∧ b.date = none) ∧
    (is_feedback_line (L.getD (b.line_start - 1) "") = some "FEEDBACK" →
      b.severity = (parse_metadata (L.getD (b.line_start - 1) "")).severity ∧
      b.reviewer = (parse_metadata (L.getD (b.line_start - 1) "")).reviewer ∧
      b.date = (parse_metadata (L.getD (b.line_start - 1) "")).date) := by
  obtain ⟨hg, -⟩ := parse_file_lines_good fp L
  obtain ⟨-, -, h3, -, -, -, -, -, -, -, h11⟩ := hg b hb
  refine ⟨h11, ?_⟩
  intro hfb0
  have hlen : 1 ≤ b.feedback_lines.length := List.length_pos.mpr h3
  have hfb : firstFB L b.line_start b.feedback_lines.length = some 0 := by
    obtain ⟨k, hk⟩ : ∃ k, b.feedback_lines.length = k + 1 :=
      ⟨b.feedback_lines.length - 1, by omega⟩
    rw [hk, firstFB, List.range_succ_eq_map, List.find?_cons]
    have hp : (is_feedback_line (L.getD (b.line_start - 1 + 0) "") ==
        some "FEEDBACK") = true := by
      rw [Nat.add_zero, hfb0]
      simp
    rw [hp]
  rw [hfb] at h11
  simpa using h11

/-- C5 witness: a block opened by a FEEDBACK line takes its metadata
from that opening line. -/
theorem metadata_once_witness :
    blockC4.severity =
      (parse_metadata (([lineC4]).getD (blockC4.line_start - 1) "")).severity ∧
    blockC4.reviewer =
      (parse_metadata (([lineC4]).getD (blockC4.line_start - 1) "")).reviewer ∧
    blockC4.date =
      (parse_metadata (([lineC4]).getD (blockC4.line_start - 1) "")).date :=
  (metadata_once "x" [lineC4] blockC4 (by decide)).2 (by decide)

/-! ## C1 — status derivation and order independence -/

/-- C1: a block's status is resolved when some of its lines carries a
RESOLVED tag, else responded when some line carries a RESPONSE tag,
else open; and the status only depends on which tags occur among the
block's lines, not on their order — two blocks whose line lists are
permutations of each other have the same status. -/
theorem status_derivation :
    (∀ (fp : String) (L : List String), ∀ b ∈ parse_file_lines fp L,
      b.status =
        (if ∃ l ∈ b.feedback_lines, is_feedback_line l = some "RESOLVED"
         then "resolved"
         else if ∃ l ∈ b.feedback_lines, is_feedback_line l = some "RESPONSE"
         then "responded"
         else "open")) ∧
    (∀ (fp : String) (L : List String) (fp' : String) (L' : List String)
        (b b' : FeedbackBlock),
      b ∈ parse_file_lines fp L → b' ∈ parse_file_lines fp' L' →
      b.feedback_lines.Perm b'.feedback_lines → b.status = b'.status) := by
  have key : ∀ (fp : String) (L : List String), ∀ b ∈ parse_file_lines fp L,
      ∀ t : String,
      ((∃ l ∈ b.feedback_lines, is_feedback_line l = some t) ↔
        ∃ i < b.feedback_lines.length,
          is_feedback_line (L.getD (b.line_start - 1 + i) "") = some t) := by
    intro fp L b hb t
    obtain ⟨hg, -⟩ := parse_file_lines_good fp L
    obtain ⟨-, -, -, -, h5, -, -, -, -, -, -⟩ := hg b hb
    constructor
    · rintro ⟨l, hl, ht⟩
      obtain ⟨i, hi, hgi⟩ := List.mem_iff_getElem.mp hl
      refine ⟨i, hi, ?_⟩
      have hstore := (h5 i hi).2
      rw [List.getD_eq_getElem _ _ hi, hgi] at hstore
      rw [← tag_rstrip, ← hstore]
      exact ht
    · rintro ⟨i, hi, ht⟩
      refine ⟨b.feedback_lines.getD i "", ?_, ?_⟩
      · rw [List.getD_eq_getElem _ _ hi]
        exact List.getElem_mem hi
      · rw [(h5 i hi).2, tag_rstrip]
        exact ht
  have part1 : ∀ (fp : String) (L : List String), ∀ b ∈ parse_file_lines fp L,
      b.status =
        (if ∃ l ∈ b.feedback_lines, is_feedback_line l = some "RESOLVED"
         then "resolved"
         else if ∃ l ∈ b.feedback_lines, is_feedback_line l = some "RESPONSE"
         then "responded"
         else "open") := by
    intro fp L b hb
    obtain ⟨hg, -⟩ := parse_file_lines_good fp L
    obtain ⟨-, -, -, -, -, -, -, h8, h9, h10, -⟩ := hg b hb
    rw [h8, statusOf]
    by_cases hR : ∃ l ∈ b.feedback_lines, is_feedback_line l = some "RESOLVED"
    · rw [if_pos hR, if_pos (h9.mpr ((key fp L b hb "RESOLVED").mp hR))]
    · have hRf : b.has_resolved = false := by
        cases hhr : b.has_resolved
        · rfl
        · exact absurd ((key fp L b hb "RESOLVED").mpr (h9.mp hhr)) hR
      rw [if_neg hR, if_neg (by rw [hRf]; simp)]
      by_cases hP : ∃ l ∈ b.feedback_lines, is_feedback_line l = some "RESPONSE"
      · rw [if_pos hP, if_pos (h10.mpr ((key fp L b hb "RESPONSE").mp hP))]
      · have hPf : b.has_response = false := by
          cases hhp : b.has_response
          · rfl
          · exact absurd ((key fp L b hb "RESPONSE").mpr (h10.mp hhp)) hP
        rw [if_neg hP, if_neg (by rw [hPf]; simp)]
  refine ⟨part1, ?_⟩
  intro fp L fp' L' b b' hb hb' hperm
  rw [part1 fp L b hb, part1 fp' L' b' hb']
  have e1 : (∃ l ∈ b.feedback_lines, is_feedback_line l = some "RESOLVED") ↔
      ∃ l ∈ b'.feedback_lines, is_feedback_line l = some "RESOLVED" := by
    constructor
    · rintro ⟨l, hl, ht⟩; exact ⟨l, hperm.mem_iff.mp hl, ht⟩
    · rintro ⟨l, hl, ht⟩; exact ⟨l, hperm.mem_iff.mpr hl, ht⟩
  have e2 : (∃ l ∈ b.feedback_lines, is_feedback_line l = some "RESPONSE") ↔
      ∃ l ∈ b'.feedback_lines, is_feedback_line l = some "RESPONSE" := by
    constructor
    · rintro ⟨l, hl, ht⟩; exact ⟨l, hperm.mem_iff.mp hl, ht⟩
    · rintro ⟨l, hl, ht⟩; exact ⟨l, hperm.mem_iff.mpr hl, ht⟩
  exact if_congr e1 rfl (if_congr e2 rfl rfl)

/-- C1 witness: two blocks with the same tags in opposite order get the
same status, which follows the resolved-over-responded-over-open
derivation. -/
theorem status_derivation_witness :
    blockPermA.feedback_lines.Perm blockPermB.feedback_lines ∧
    blockPermA.status = blockPermB.status ∧
    blockPermA.status =
      (if ∃ l ∈ blockPermA.feedback_lines, is_feedback_line l = some "RESOLVED"
       then "resolved"
       else if ∃ l ∈ blockPermA.feedback_lines,
          is_feedback_line l = some "RESPONSE"
       then "responded"
       else "open") :=
  ⟨by decide,
   status_derivation.2 "a" linesPermA "b" linesPermB blockPermA blockPermB
     (by decide) (by decide) (by decide),
   status_derivation.1 "a" linesPermA blockPermA (by decide)⟩

end ClaudeDotfiles
